import Mathlib

/-!
Verification development for the streaming assistant-message parser
(`src/core/sliding-window/index.ts`, `parseAssistantMessage`) and the
conversation context manager (`src/core/context-manager.ts`, plus the
range-based variant found in the repository).

Strings are modelled as `List Char`; JavaScript numbers that carry token
counts and thresholds are modelled as exact rationals (`ℚ`) resp.
integers, with `Math.ceil` as `Int.ceil`.  Fallible external API calls
are modelled with `Except`.
-/

/- Batteries marks the `Rat` arithmetic irreducible, which blocks `decide`'s
whnf evaluation of concrete token arithmetic; re-opening it changes nothing
semantically (the kernel never respected the marking anyway). -/
set_option allowUnsafeReducibility true
attribute [semireducible] Rat.add Rat.mul Rat.sub Rat.inv

namespace Cline

/-! ### JavaScript string primitives on `List Char` -/

/-- Whitespace recognised by JavaScript `trim` / `\s` (ASCII part). -/
def jsWS (c : Char) : Bool :=
  c == ' ' || c == '\t' || c == '\n' || c == '\r' || c == '\x0b' || c == '\x0c'

/-- JavaScript `String.prototype.trim`. -/
def trimL (l : List Char) : List Char :=
  ((l.dropWhile jsWS).reverse.dropWhile jsWS).reverse

/-- Is `w` a (list) prefix of `l`?  Executable. -/
def pfxB : List Char → List Char → Bool
  | [], _ => true
  | _ :: _, [] => false
  | a :: w, b :: l => a == b && pfxB w l

/-- JavaScript `String.prototype.endsWith`: `w` is a suffix of `l`. -/
def sfxB (w l : List Char) : Bool :=
  pfxB w.reverse l.reverse

/-- JavaScript `String.prototype.indexOf` (first match position, `none` for -1). -/
def indexOfL (l pat : List Char) : Option Nat :=
  (List.range (l.length + 1)).find? (fun i => pfxB pat (l.drop i))

/-- JavaScript `String.prototype.lastIndexOf` (last match position, `none` for -1). -/
def lastIndexOfL (l pat : List Char) : Option Nat :=
  (List.range (l.length + 1)).reverse.find? (fun i => pfxB pat (l.drop i))

/-- JavaScript `slice(start, end)` on strings/arrays, with negative-index
normalisation and clamping. -/
def jsSlice {α : Type} (l : List α) (a b : Int) : List α :=
  let n : Int := l.length
  let s : Int := if a < 0 then max 0 (n + a) else min a n
  let e : Int := if b < 0 then max 0 (n + b) else min b n
  (l.drop s.toNat).take (e - s).toNat

/-- JavaScript one-argument `slice(start)`. -/
def jsSliceFrom {α : Type} (l : List α) (a : Int) : List α :=
  jsSlice l a l.length

/-! ### Tool-use vocabulary

Modelled from the spec: the tool and parameter name vocabularies are
imported by `parseAssistantMessage` from a module that is not part of
`src/`; the names themselves are those of the system prompt
(`src/core/prompts/system.ts`). -/

def toolUseNames : List (List Char) :=
  ["read_file".toList, "write_to_file".toList, "replace_in_file".toList,
   "search_files".toList, "list_files".toList, "list_code_definition_names".toList,
   "execute_command".toList, "ask_followup_question".toList,
   "plan_mode_response".toList, "attempt_completion".toList,
   "browser_action".toList, "use_mcp_tool".toList, "access_mcp_resource".toList]

def toolParamNames : List (List Char) :=
  ["path".toList, "content".toList, "diff".toList, "regex".toList,
   "file_pattern".toList, "recursive".toList, "command".toList,
   "requires_approval".toList, "question".toList, "response".toList,
   "result".toList, "action".toList, "url".toList, "coordinate".toList,
   "text".toList, "server_name".toList, "tool_name".toList,
   "arguments".toList, "uri".toList]

def wtfName : List Char := "write_to_file".toList
def rifName : List Char := "replace_in_file".toList
def contentName : List Char := "content".toList
def diffName : List Char := "diff".toList

/-- `<name>` -/
def openTag (name : List Char) : List Char := '<' :: name ++ ['>']

/-- `</name>` -/
def closeTag (name : List Char) : List Char := '<' :: '/' :: name ++ ['>']

/-! ### Parser data model -/

structure TextContent where
  content : List Char
  isPartial : Bool
  deriving DecidableEq, Repr

structure ToolUse where
  name : List Char
  params : List (List Char × List Char)
  isPartial : Bool
  deriving DecidableEq, Repr

inductive AssistantMessageContent where
  | text : TextContent → AssistantMessageContent
  | toolUse : ToolUse → AssistantMessageContent
  deriving DecidableEq, Repr

/-- JavaScript object property assignment `params[name] = v`
(replace if present, append otherwise; insertion order kept). -/
def setParam (ps : List (List Char × List Char)) (k v : List Char) :
    List (List Char × List Char) :=
  if ps.any (fun p => p.1 == k) then
    ps.map (fun p => if p.1 == k then (k, v) else p)
  else
    ps ++ [(k, v)]

/-- The local mutable variables of `parseAssistantMessage`'s loop. -/
structure ParseState where
  contentBlocks : List AssistantMessageContent
  currentTextContent : Option TextContent
  currentTextContentStartIndex : Nat
  currentToolUse : Option ToolUse
  currentToolUseStartIndex : Nat
  currentParamName : Option (List Char)
  currentParamValueStartIndex : Nat
  accumulator : List Char
  deriving DecidableEq, Repr

def initState : ParseState :=
  { contentBlocks := [], currentTextContent := none,
    currentTextContentStartIndex := 0, currentToolUse := none,
    currentToolUseStartIndex := 0, currentParamName := none,
    currentParamValueStartIndex := 0, accumulator := [] }

/-- One iteration of the character loop of `parseAssistantMessage`. -/
def step (s : ParseState) (c : Char) : ParseState :=
  let acc := s.accumulator ++ [c]
  match s.currentToolUse, s.currentParamName with
  | some tu, some pn =>
    -- there should not be a param without a tool use
    let currentParamValue := acc.drop s.currentParamValueStartIndex
    let paramClosingTag := closeTag pn
    if tu.name == wtfName && pn == contentName then
      -- special handling for write_to_file content parameter
      match lastIndexOfL currentParamValue paramClosingTag with
      | some closingTagIndex =>
        { s with accumulator := acc
                 currentToolUse := some { tu with
                   params := setParam tu.params pn
                     (trimL (jsSlice currentParamValue 0 closingTagIndex)) }
                 currentParamName := none }
      | none => { s with accumulator := acc }
    else if tu.name == rifName && pn == diffName then
      -- special handling for replace_in_file diff parameter
      match lastIndexOfL currentParamValue paramClosingTag with
      | some closingTagIndex =>
        { s with accumulator := acc
                 currentToolUse := some { tu with
                   params := setParam tu.params pn
                     (trimL (jsSlice currentParamValue 0 closingTagIndex)) }
                 currentParamName := none }
      | none => { s with accumulator := acc }
    else if sfxB paramClosingTag currentParamValue then
      -- end of param value (regular parameter handling)
      { s with accumulator := acc
               currentToolUse := some { tu with
                 params := setParam tu.params pn
                   (trimL (jsSlice currentParamValue 0
                     (-(paramClosingTag.length : Int)))) }
               currentParamName := none }
    else
      { s with accumulator := acc }
  | some tu, none =>
    let currentToolValue := acc.drop s.currentToolUseStartIndex
    if sfxB (closeTag tu.name) currentToolValue then
      -- end of a tool use
      { s with accumulator := acc
               contentBlocks := s.contentBlocks ++ [.toolUse { tu with isPartial := false }]
               currentToolUse := none }
    else
      -- start of a new parameter?  (first matching opening tag wins)
      let s₁ : ParseState :=
        match toolParamNames.find? (fun pname => sfxB (openTag pname) acc) with
        | some pname =>
          { s with currentParamName := some pname
                   currentParamValueStartIndex := acc.length }
        | none => s
      -- fallback for write_to_file where file contents could contain the closing tag
      let tu₁ : ToolUse :=
        if tu.name == wtfName && sfxB (closeTag contentName) acc then
          let toolContent := acc.drop s.currentToolUseStartIndex
          let contentStartTag := openTag contentName
          let contentEndTag := closeTag contentName
          let contentStartIndex : Int :=
            (match indexOfL toolContent contentStartTag with
             | some i => (i : Int) | none => -1) + contentStartTag.length
          let contentEndIndex : Int :=
            match lastIndexOfL toolContent contentEndTag with
            | some i => (i : Int) | none => -1
          if contentStartIndex ≠ -1 ∧ contentEndIndex ≠ -1 ∧
              contentEndIndex > contentStartIndex then
            { tu with params := setParam tu.params contentName
                        (trimL (jsSlice toolContent contentStartIndex contentEndIndex)) }
          else tu
        else tu
      -- similar fallback for replace_in_file diff parameter
      let tu₂ : ToolUse :=
        if tu.name == rifName && sfxB (closeTag diffName) acc then
          let toolContent := acc.drop s.currentToolUseStartIndex
          let diffStartTag := openTag diffName
          let diffEndTag := closeTag diffName
          let diffStartIndex : Int :=
            (match indexOfL toolContent diffStartTag with
             | some i => (i : Int) | none => -1) + diffStartTag.length
          let diffEndIndex : Int :=
            match lastIndexOfL toolContent diffEndTag with
            | some i => (i : Int) | none => -1
          if diffStartIndex ≠ -1 ∧ diffEndIndex ≠ -1 ∧
              diffEndIndex > diffStartIndex then
            { tu₁ with params := setParam tu₁.params diffName
                         (trimL (jsSlice toolContent diffStartIndex diffEndIndex)) }
          else tu₁
        else tu₁
      { s₁ with accumulator := acc, currentToolUse := some tu₂ }
  | none, _ =>
    -- no current tool use: text, possibly starting a tool use
    match toolUseNames.find? (fun tname => sfxB (openTag tname) acc) with
    | some tname =>
      -- start of a new tool use; also ends the current text content
      let blocks :=
        match s.currentTextContent with
        | some tc =>
          s.contentBlocks ++ [.text { tc with
            isPartial := false
            content := trimL (jsSlice tc.content 0 (-(((openTag tname).length : Int) - 1))) }]
        | none => s.contentBlocks
      { s with accumulator := acc
               contentBlocks := blocks
               currentTextContent := none
               currentToolUse := some { name := tname, params := [], isPartial := true }
               currentToolUseStartIndex := acc.length }
    | none =>
      let startIdx :=
        match s.currentTextContent with
        | none => s.accumulator.length      -- the loop index i
        | some _ => s.currentTextContentStartIndex
      { s with accumulator := acc
               currentTextContentStartIndex := startIdx
               currentTextContent :=
                 some { content := trimL (acc.drop startIdx), isPartial := true } }

/-- `parseAssistantMessage` from `src/core/sliding-window/index.ts`. -/
def parseAssistantMessage (assistantMessage : List Char) :
    List AssistantMessageContent :=
  let s := assistantMessage.foldl step initState
  let blocks₁ :=
    match s.currentToolUse with
    | some tu =>
      -- stream did not complete tool call, add it as partial
      let tu' :=
        match s.currentParamName with
        | some pn =>
          { tu with params := setParam tu.params pn
                      (trimL (jsSliceFrom s.accumulator s.currentParamValueStartIndex)) }
        | none => tu
      s.contentBlocks ++ [.toolUse tu']
    | none => s.contentBlocks
  match s.currentTextContent with
  | some tc => blocks₁ ++ [.text tc]
  | none => blocks₁

/-! ### Context manager data model (`src/core/context-manager.ts`)

`Anthropic.MessageParam` content blocks are consumed by the manager only
through the text of `text` blocks, the serialized length of `tool_use`
inputs, and the (serialized) length of `tool_result` contents; the model
records exactly that. -/

inductive Role where
  | user | assistant
  deriving DecidableEq, Repr

inductive ContentPart where
  | text (t : List Char)
  | toolUse (inputSerializedLength : ℕ)
  | toolResult (contentLength : ℕ)
  | other
  deriving DecidableEq, Repr

inductive MessageContent where
  | blocks (bs : List ContentPart)
  | str (s : List Char)
  deriving DecidableEq, Repr

structure MessageParam where
  role : Role
  content : MessageContent
  deriving DecidableEq, Repr

/-- The punctuation class `[.,!?;:()[\]\x7b\x7d'"]` of `estimateTokenCount`. -/
def punctChars : List Char :=
  ['.', ',', '!', '?', ';', ':', '(', ')', '[', ']',
   Char.ofNat 123, Char.ofNat 125, Char.ofNat 39, Char.ofNat 34]

/-- Number of maximal whitespace runs in `t` (`prev` = previous char was ws). -/
def wsRunsAux : List Char → Bool → ℕ
  | [], _ => 0
  | c :: rest, prev =>
    (if jsWS c && !prev then 1 else 0) + wsRunsAux rest (jsWS c)

/-- `text.split(/\s+/).length`: one more than the number of whitespace runs. -/
def splitWordCount (t : List Char) : ℕ := wsRunsAux t false + 1

/-- Token estimate of one content block (body of the `reduce` in
`estimateTokenCount`). -/
def partTokens : ContentPart → ℚ
  | .text t =>
    let words : ℚ := splitWordCount t
    let punctuation : ℕ := t.countP (fun c => punctChars.contains c)
    words + (Int.ceil ((punctuation : ℚ) * (1/2)) : ℤ)
  | .toolUse n => 20 + (n : ℚ) / 4
  | .toolResult n => 10 + (n : ℚ) / 4
  | .other => 10

structure ContextManager where
  model : List Char
  maxContextLength : ℚ
  memoryThreshold : ℚ
  emergencyThreshold : ℚ
  lastMemoryRefreshTokenCount : ℤ
  memoryRefreshCount : ℕ
  deriving DecidableEq, Repr

/-- The `ContextManager` constructor (`maxContextLength || 128000`;
thresholds 60% / 80%). -/
def ContextManager.create (model : List Char) (maxContextLength : ℚ) :
    ContextManager :=
  { model
    maxContextLength := if maxContextLength = 0 then 128000 else maxContextLength
    memoryThreshold := 6/10
    emergencyThreshold := 8/10
    lastMemoryRefreshTokenCount := 0
    memoryRefreshCount := 0 }

/-- `estimateTokenCount` (with the 1.8 correction factor). -/
def estimateTokenCount (message : MessageParam) : ℤ :=
  let tokenCount : ℚ :=
    match message.content with
    | .blocks bs => bs.foldl (fun sum b => sum + partTokens b) 0
    | .str s => (s.length : ℚ) / 4
  Int.ceil ((tokenCount + 4) * (18/10))

structure ContextAnalysis where
  totalTokens : ℤ
  utilizationPercentage : ℚ
  needsSummarization : Bool
  messageCount : ℕ
  deriving DecidableEq, Repr

def hardTokenLimit : ℤ := 60000

/-- `analyzeConversation` of `src/core/context-manager.ts`. -/
def analyzeConversation (cm : ContextManager) (messages : List MessageParam) :
    ContextAnalysis :=
  let totalTokens : ℤ := (messages.map estimateTokenCount).sum
  let utilizationPercentage : ℚ := (totalTokens : ℚ) / cm.maxContextLength
  let needsSummarization : Bool :=
    if totalTokens > hardTokenLimit then
      true
    else if cm.memoryRefreshCount = 0 then
      decide (utilizationPercentage ≥ cm.memoryThreshold)
    else
      let tokenGrowth : ℤ := totalTokens - cm.lastMemoryRefreshTokenCount
      let growthPercentage : ℚ := (tokenGrowth : ℚ) / cm.maxContextLength
      decide ((growthPercentage ≥ 15/100 ∧
               utilizationPercentage ≥ cm.memoryThreshold) ∨
              utilizationPercentage ≥ cm.emergencyThreshold)
  { totalTokens, utilizationPercentage, needsSummarization,
    messageCount := messages.length }

inductive MemoryStrategy where
  | light | standard | aggressive | emergency
  deriving DecidableEq, Repr

def getMemoryStrategy (cm : ContextManager) (utilization : ℚ) : MemoryStrategy :=
  if utilization ≥ cm.emergencyThreshold then .emergency
  else if utilization ≥ cm.memoryThreshold + 15/100 then .aggressive
  else if utilization ≥ cm.memoryThreshold then .standard
  else .light

/-! ### External API model

`api.createMessage(system, messages)` followed by collecting the text
chunks of the stream is modelled as a deterministic oracle from the
system prompt and user text to the full response text, or a failure
(a rejected stream / thrown error). -/

structure ApiError where
  message : List Char
  deriving DecidableEq, Repr

structure ApiHandler where
  respond : List Char → List Char → Except ApiError (List Char)

def organizingSystemPrompt : List Char :=
  "You are an AI assistant organizing your memory of a technical conversation.".toList

def summarizingSystemPrompt : List Char :=
  "You are an AI assistant summarizing a technical message.".toList

/-- User text of `summarizeLongMessage`'s request (English template kept
only by its head; no claim inspects prompt wording). -/
def summarizeLongPrompt (message : List Char) : List Char :=
  "Summarize this long technical message while preserving all: ".toList ++ message

/-- `summarizeLongMessage`: one API call, result wrapped in a marker.
Note the absence of any try/catch: a failure propagates. -/
def summarizeLongMessage (api : ApiHandler) (message : List Char) :
    Except ApiError (List Char × ℕ) := do
  let summary ← api.respond summarizingSystemPrompt (summarizeLongPrompt message)
  pure ("[SUMMARIZED LONG MESSAGE: ".toList ++ summary ++ [']'], 1)

def MAX_TEXT_LENGTH : ℕ := 1000

/-- Rendering of one content block inside `createMemoryStructurePrompt`
(the fixed marker strings for tool blocks are abbreviated). -/
def renderPart (api : ApiHandler) : ContentPart → Except ApiError (List Char × ℕ)
  | .text t =>
    if t.length > MAX_TEXT_LENGTH then summarizeLongMessage api t
    else pure (t, 0)
  | .toolUse _ => pure ("[TOOL: name with parameters]".toList, 0)
  | .toolResult _ => pure ("[TOOL RESULT: id]".toList, 0)
  | .other => pure ("[other content]".toList, 0)

def renderParts (api : ApiHandler) : List ContentPart →
    Except ApiError (List (List Char) × ℕ)
  | [] => pure ([], 0)
  | b :: bs => do
    let (r, n) ← renderPart api b
    let (rs, m) ← renderParts api bs
    pure (r :: rs, n + m)

def renderMessage (api : ApiHandler) (msg : MessageParam) :
    Except ApiError (List Char × ℕ) :=
  match msg.content with
  | .blocks bs => do
    let (rs, n) ← renderParts api bs
    pure (List.intercalate ['\n'] rs, n)
  | .str s =>
    if s.length > MAX_TEXT_LENGTH then summarizeLongMessage api s
    else pure (s, 0)

def roleText : Role → List Char
  | .user => "USER".toList
  | .assistant => "ASSISTANT".toList

def renderMessages (api : ApiHandler) : List MessageParam →
    Except ApiError (List (List Char) × ℕ)
  | [] => pure ([], 0)
  | m :: ms => do
    let (r, n) ← renderMessage api m
    let (rs, k) ← renderMessages api ms
    pure (("MESSAGE (".toList ++ roleText m.role ++ "):\n".toList ++ r ++ ['\n']) :: rs,
          n + k)

/-- `createMemoryStructurePrompt`: renders every message to summarize
(per-message summarization calls included), then assembles the prompt.
The surrounding English template is abbreviated; the count of API calls
made is returned alongside. -/
def createMemoryStructurePrompt (api : ApiHandler)
    (messagesToSummarize : List MessageParam) (summaryInstructions : List Char) :
    Except ApiError (List Char × ℕ) := do
  let (cc, n) ← renderMessages api messagesToSummarize
  pure ("You are creating a memory structure.\nSUMMARY INSTRUCTIONS:\n".toList ++
        summaryInstructions ++ "\nMESSAGES TO SUMMARIZE:\n".toList ++
        List.intercalate "\n---\n".toList cc, n)

/-! ### `parseMemoryDecision` and its two regular expressions -/

def lowerChar (c : Char) : Char :=
  if 'A' ≤ c ∧ c ≤ 'Z' then Char.ofNat (c.toNat + 32) else c

/-- Case-insensitive "pat matches at the head of l" (pat given lowercase). -/
def ciPfx (pat l : List Char) : Bool :=
  pfxB pat (l.map lowerChar)

def indicesKey : List Char := "indices_to_keep:".toList
def indicesKeyBare : List Char := "indices_to_keep".toList
def instructionsKey : List Char := "summary_instructions:".toList

/-- Match `/INDICES_TO_KEEP:\s*(\[[\d,\s]*\])/i` anchored at the head of `l`,
returning the bracket capture group.  The quantifiers need no backtracking:
`\s` never matches `[` and the bracket class never matches `]`. -/
def matchIndicesAt (l : List Char) : Option (List Char) :=
  if ciPfx indicesKey l then
    match (l.drop indicesKey.length).dropWhile jsWS with
    | '[' :: r2 =>
      let ds := r2.takeWhile (fun c => c.isDigit || c == ',' || jsWS c)
      match r2.drop ds.length with
      | ']' :: _ => some ('[' :: ds ++ [']'])
      | _ => none
    | _ => none
  else none

/-- Try a head-anchored matcher at every position, leftmost first
(regex search semantics). -/
def searchFirst {α : Type} (f : List Char → Option α) : List Char → Option α
  | [] => f []
  | l@(_ :: rest) =>
    match f l with
    | some r => some r
    | none => searchFirst f rest

/-- First position at which `key` matches case-insensitively. -/
def findCIKeyIdx (key : List Char) : List Char → Option ℕ
  | [] => if ciPfx key [] then some 0 else none
  | l@(_ :: rest) =>
    if ciPfx key l then some 0
    else
      match findCIKeyIdx key rest with
      | some i => some (i + 1)
      | none => none

/-- Match `/SUMMARY_INSTRUCTIONS:\s*([\s\S]*?)(?:$|INDICES_TO_KEEP)/i` anchored
at the head of `l`: greedy whitespace, then the lazy capture runs to the first
following `INDICES_TO_KEEP` or to the end of the string. -/
def matchInstructionsAt (l : List Char) : Option (List Char) :=
  if ciPfx instructionsKey l then
    let r := (l.drop instructionsKey.length).dropWhile jsWS
    match findCIKeyIdx indicesKeyBare r with
    | some j => some (r.take j)
    | none => some r
  else none

def defaultSummaryInstructions : List Char :=
  "Create a comprehensive summary of the removed messages.".toList

structure MemoryDecision where
  messagesToKeepIndices : List ℕ
  summaryInstructions : List Char
  deriving DecidableEq, Repr

/-- `instructionsMatch && instructionsMatch[1]`: an empty capture group is
falsy, so it keeps the default. -/
def extractInstructions (decisionText : List Char) : List Char :=
  match searchFirst matchInstructionsAt decisionText with
  | some s => if s = [] then defaultSummaryInstructions else trimL s
  | none => defaultSummaryInstructions

/-- A JSON number: digits, no leading zero (except "0" itself). -/
def parseJsonNat (ds : List Char) : Option ℕ :=
  if ds = [] then none
  else if ds.head? = some '0' ∧ ds.length > 1 then none
  else some (ds.foldl (fun n c => n * 10 + (c.toNat - 48)) 0)

def jsonWSp (c : Char) : Bool := c == ' ' || c == '\t' || c == '\n' || c == '\r'

def parseJsonElems : ℕ → List Char → Option (List ℕ)
  | 0, _ => none
  | fuel + 1, l =>
    let l1 := l.dropWhile jsonWSp
    let ds := l1.takeWhile Char.isDigit
    match parseJsonNat ds with
    | none => none
    | some n =>
      match (l1.drop ds.length).dropWhile jsonWSp with
      | [']'] => some [n]
      | ',' :: rest2 =>
        match parseJsonElems fuel rest2 with
        | some ns => some (n :: ns)
        | none => none
      | _ => none

/-- `JSON.parse` restricted to arrays of non-negative numbers (the only shape
the regex capture can produce); `none` models a thrown `SyntaxError`. -/
def jsonParseNumArray (s : List Char) : Option (List ℕ) :=
  match s.dropWhile jsonWSp with
  | '[' :: r =>
    match r.dropWhile jsonWSp with
    | [']'] => some []
    | _ => parseJsonElems (r.length + 1) r
  | _ => none

/-- `parseMemoryDecision` of `src/core/context-manager.ts`.  When
`JSON.parse` throws, the catch block sets the indices to `0..9`
(its comment says "the most recent 10 messages") and, because the
instructions extraction sits later in the same `try`, the instructions
stay at their default. -/
def parseMemoryDecision (decisionText : List Char) : MemoryDecision :=
  match searchFirst matchIndicesAt decisionText with
  | some grp =>
    match jsonParseNumArray grp with
    | some idxs =>
      { messagesToKeepIndices := idxs
        summaryInstructions := extractInstructions decisionText }
    | none =>
      { messagesToKeepIndices := List.range 10
        summaryInstructions := defaultSummaryInstructions }
  | none =>
    { messagesToKeepIndices := []
      summaryInstructions := extractInstructions decisionText }

/-! ### `optimizeConversationHistory` (decision-based compaction) -/

structure OptimizationResult where
  history : List MessageParam
  deletedRange : Option (ℤ × ℤ)
  didSummarize : Bool
  messagesReplaced : Option ℕ
  tokensBefore : Option ℤ
  tokensAfter : Option ℤ
  summaryBrief : Option (List Char)
  deriving DecidableEq, Repr

def strategyMarker : MemoryStrategy → List Char
  | .emergency => "EMERGENCY context situation.".toList
  | .aggressive => "Token usage is high.".toList
  | .standard => "Create a balanced memory structure.".toList
  | .light => "Light optimization needed.".toList

/-- `createMemoryDecisionPrompt` (English template and token statistics
abbreviated to the pieces that vary; no claim inspects the wording). -/
def createMemoryDecisionPrompt (history : List MessageParam)
    (strategy : MemoryStrategy) : List Char :=
  "You are managing the memory of an ongoing technical conversation with ".toList ++
  (toString history.length).toList ++ " messages.\n".toList ++
  strategyMarker strategy ++
  "\nRespond in this exact format:\nINDICES_TO_KEEP: [array of indices]\nSUMMARY_INSTRUCTIONS: Your specific instructions for summarization".toList

/-- `history.filter((_, index) => keepSet.includes(index) === keep)`. -/
def filterByIndexMem (history : List MessageParam) (idxs : List ℕ) (keep : Bool) :
    List MessageParam :=
  (history.enum.filter (fun p => idxs.contains p.1 == keep)).map (fun p => p.2)

/-- `memoryStructureText.split(" ").slice(0, 5).join(" ") + "..."` -/
def summaryBriefOf (t : List Char) : List Char :=
  List.intercalate [' '] ((t.splitOn ' ').take 5) ++ "...".toList

/-- `optimizeConversationHistory` of `src/core/context-manager.ts`.
Returns the result, the updated manager (the mutated `this`), and the
number of API calls that completed.  No try/catch anywhere on this path:
any API failure propagates to the caller. -/
def optimizeConversationHistory (cm : ContextManager) (api : ApiHandler)
    (history : List MessageParam) (deletedRange : Option (ℤ × ℤ)) :
    Except ApiError (OptimizationResult × ContextManager × ℕ) := do
  let analysis := analyzeConversation cm history
  if analysis.needsSummarization = false then
    -- memory refresh not needed, skipping
    pure ({ history := history, deletedRange := none, didSummarize := false,
            messagesReplaced := none, tokensBefore := none, tokensAfter := none,
            summaryBrief := none }, cm, 0)
  else
    let strategy := getMemoryStrategy cm analysis.utilizationPercentage
    -- STEP 1: ask the LLM which messages to keep
    let memoryDecisionText ←
      api.respond organizingSystemPrompt (createMemoryDecisionPrompt history strategy)
    let d := parseMemoryDecision memoryDecisionText
    -- STEP 2: memory structure for the other messages
    let messagesToSummarize := filterByIndexMem history d.messagesToKeepIndices false
    let (memoryStructurePrompt, innerCalls) ←
      createMemoryStructurePrompt api messagesToSummarize d.summaryInstructions
    let memoryStructureText ← api.respond organizingSystemPrompt memoryStructurePrompt
    let memoryStructureMessage : MessageParam :=
      { role := .assistant, content := .blocks [.text memoryStructureText] }
    -- STEP 3: replace old messages with the memory structure
    let messagesToKeep := filterByIndexMem history d.messagesToKeepIndices true
    let newHistory := memoryStructureMessage :: messagesToKeep
    let newDeletedRange : ℤ × ℤ := (0, (history.length : ℤ) - messagesToKeep.length)
    let newTokens : ℤ := (newHistory.map estimateTokenCount).sum
    let cm' := { cm with lastMemoryRefreshTokenCount := newTokens
                         memoryRefreshCount := cm.memoryRefreshCount + 1 }
    pure ({ history := newHistory, deletedRange := some newDeletedRange,
            didSummarize := true,
            messagesReplaced := some messagesToSummarize.length,
            tokensBefore := some analysis.totalTokens,
            tokensAfter := some newTokens,
            summaryBrief := some (summaryBriefOf memoryStructureText) },
          cm', 2 + innerCalls)

/-! ### Legacy `createMemoryStructure` (the only compaction entry point
with a try/catch) -/

def fallbackMemoryStructure : List Char :=
  "# MEMORY STRUCTURE\n\n## CURRENT TASK\nI'm continuing to help with the current task, focusing on maintaining context in our conversation.\n\n## NEXT STEPS\nI'll continue helping with the implementation as we discussed.".toList

/-- `createMemoryStructure`: one API call wrapped in a try/catch whose
catch returns the fixed fallback structure (prompt assembly abbreviated). -/
def createMemoryStructure (api : ApiHandler) (messages : List MessageParam)
    (strategy : MemoryStrategy) : Except ApiError (List Char) :=
  let fullPrompt := strategyMarker strategy ++
    "\n\nAs an AI assistant, I need to organize my memory of our conversation (".toList ++
    (toString messages.length).toList ++ " messages).".toList
  match api.respond organizingSystemPrompt fullPrompt with
  | .ok memoryStructure => .ok memoryStructure
  | .error _ => .ok fallbackMemoryStructure

/-! ### Range-based compaction (the `ContextManager` variant of
`src/unnamed/part_004`, `src/core/context-manager.ts` in its header) -/

namespace RangeCM

structure ContextManager where
  model : List Char
  maxContextLength : ℚ
  summarizationThreshold : ℚ
  deriving DecidableEq, Repr

def ContextManager.create (model : List Char) (maxContextLength : ℚ) :
    ContextManager :=
  { model
    maxContextLength := if maxContextLength = 0 then 128000 else maxContextLength
    summarizationThreshold := 1/2 }

/-- `estimateTokenCount` of the range-based variant (no correction factor). -/
def estimateTokenCount (message : MessageParam) : ℤ :=
  let tokenCount : ℚ :=
    match message.content with
    | .blocks bs => bs.foldl (fun sum b => sum + partTokens b) 0
    | .str s => (s.length : ℚ) / 4
  Int.ceil (tokenCount + 4)

structure ContextAnalysis where
  totalTokens : ℤ
  utilizationPercentage : ℚ
  needsSummarization : Bool
  messageCount : ℕ
  deriving DecidableEq, Repr

def analyzeConversation (cm : ContextManager) (messages : List MessageParam) :
    ContextAnalysis :=
  let totalTokens : ℤ := (messages.map estimateTokenCount).sum
  { totalTokens
    utilizationPercentage := (totalTokens : ℚ) / cm.maxContextLength
    needsSummarization :=
      decide ((totalTokens : ℚ) ≥ cm.maxContextLength * cm.summarizationThreshold)
    messageCount := messages.length }

inductive SummarizationStrategy where
  | light | standard | aggressive
  deriving DecidableEq, Repr

def getSummarizationStrategy (utilization : ℚ) : SummarizationStrategy :=
  if utilization > 8/10 then .aggressive
  else if utilization > 6/10 then .standard
  else .light

/-- `getMessageRange`: start after the task message; `end` is a JS number and
can become negative through the deleted-range clamp, hence `ℤ`.
`Math.floor(len * f)` for the float factors 0.4/0.6/0.8 agrees with exact
rational arithmetic on every list length. -/
def getMessageRange (messages : List MessageParam) (deletedRange : Option (ℤ × ℤ))
    (strategy : SummarizationStrategy) : ℕ × ℤ :=
  let totalMessages := messages.length
  let start : ℕ := 1
  let e0 : ℤ :=
    match strategy with
    | .aggressive => (totalMessages * 8) / 10
    | .standard => (totalMessages * 6) / 10
    | .light => (totalMessages * 4) / 10
  let e1 : ℤ :=
    match deletedRange with
    | some dr => min e0 (dr.1 - 1)
    | none => e0
  (start, e1)

def formatMessagesForSummary (messages : List MessageParam) : List Char :=
  (messages.map (fun msg =>
    roleText msg.role ++ ": ".toList ++
    (match msg.content with
     | .blocks bs =>
       List.intercalate ['\n'] ((bs.map (fun b =>
         match b with
         | .text t => t
         | .toolUse _ => "[Used tool]".toList
         | .toolResult _ => "[Tool result]".toList
         | .other => [])).filter (fun t => t ≠ []))
     | .str s => s) ++ "\n\n".toList)).flatten

def summaryPromptSystem : List Char :=
  "You are an expert assistant tasked with summarizing previous conversation context.".toList

def summaryHeader : List Char := "## CONTEXT SUMMARY\n\n".toList

def summaryFallbackBody : List Char :=
  "Previous conversation included technical discussions and code edits that have been summarized due to context limits.".toList

/-- `createSummary`: one API call inside a try/catch; the catch returns the
fixed header + fallback sentence, so this function never fails. -/
def createSummary (api : ApiHandler) (messagesToSummarize : List MessageParam) :
    List Char :=
  match api.respond summaryPromptSystem
      ("Please summarize the following conversation:\n\n".toList ++
       formatMessagesForSummary messagesToSummarize) with
  | .ok summary => summaryHeader ++ summary
  | .error _ => summaryHeader ++ summaryFallbackBody

structure OptimizationResult where
  history : List MessageParam
  deletedRange : Option (ℤ × ℤ)
  didSummarize : Bool
  messagesReplaced : Option ℕ
  deriving DecidableEq, Repr

/-- JS `history[0]` (unreachable default: the empty-slice early return fires
first on an empty history). -/
def defaultMessage : MessageParam := { role := .user, content := .str [] }

/-- `optimizeConversationHistory` of the range-based variant. -/
def optimizeConversationHistory (cm : ContextManager) (api : ApiHandler)
    (history : List MessageParam) (deletedRange : Option (ℤ × ℤ)) :
    OptimizationResult :=
  let analysis := analyzeConversation cm history
  if analysis.needsSummarization = false then
    { history := history, deletedRange := deletedRange, didSummarize := false,
      messagesReplaced := none }
  else
    let strategy := getSummarizationStrategy analysis.utilizationPercentage
    let se := getMessageRange history deletedRange strategy
    let start : ℕ := se.1
    let e : ℤ := se.2
    let messagesToSummarize := jsSlice history start (e + 1)
    if messagesToSummarize.length = 0 then
      { history := history, deletedRange := deletedRange, didSummarize := false,
        messagesReplaced := none }
    else
      let summary := createSummary api messagesToSummarize
      let taskMessage := history.headD defaultMessage
      let summaryMessage : MessageParam :=
        { role := .assistant, content := .blocks [.text summary] }
      let recentMessages := jsSliceFrom history (e + 1)
      let newHistory := taskMessage :: summaryMessage :: recentMessages
      let newDeletedRange : ℤ × ℤ :=
        match deletedRange with
        | some dr => (min (start : ℤ) dr.1, max e dr.2)
        | none => ((start : ℤ), e)
      { history := newHistory, deletedRange := some newDeletedRange,
        didSummarize := true, messagesReplaced := some messagesToSummarize.length }

end RangeCM

/-! ### Predicates used by the statements and proofs -/

/-- The list contains no `<` character (a tag-free payload segment). -/
def noLT (l : List Char) : Prop := '<' ∉ l

instance (l : List Char) : Decidable (noLT l) :=
  inferInstanceAs (Decidable ('<' ∉ l))

/-- `w` is a suffix of `l`. -/
def isSfx (w l : List Char) : Prop := ∃ p, p ++ w = l

/-- `w` is a prefix of `l`. -/
def isPfx (w l : List Char) : Prop := ∃ t, w ++ t = l

/-- The `partial` flag of a produced content block. -/
def blockPending : AssistantMessageContent → Bool
  | .text tc => tc.isPartial
  | .toolUse tu => tu.isPartial

/-- Every stored parameter value of the association list is trim-fixed. -/
def paramsTrimmed (ps : List (List Char × List Char)) : Prop :=
  ∀ p ∈ ps, trimL p.2 = p.2

/-- Every parameter value of every tool-use block is trim-fixed. -/
def blockTrimmed : AssistantMessageContent → Prop
  | .text _ => True
  | .toolUse tu => paramsTrimmed tu.params

/-- Input of the large-payload scenario: a `tool` invocation whose `par`
parameter payload contains a literal premature occurrence of the parameter's
closing tag (between `a` and `b`) followed by the real terminator. -/
def embeddedTagInput (tool par a b : List Char) : List Char :=
  openTag tool ++ openTag par ++ a ++ closeTag par ++ b ++ closeTag par ++ closeTag tool

/-- Parser state after consuming `x` as plain text (no tool tag seen yet). -/
def textState (x : List Char) : ParseState :=
  { contentBlocks := [],
    currentTextContent := if x.isEmpty then none else some ⟨trimL x, true⟩,
    currentTextContentStartIndex := 0,
    currentToolUse := none, currentToolUseStartIndex := 0,
    currentParamName := none, currentParamValueStartIndex := 0,
    accumulator := x }

/-- Parser state right after text `t` followed by `<read_file>`: the text
span is closed, trimmed of the tag characters, and pushed. -/
def tagFiredState (t : List Char) : ParseState :=
  { contentBlocks := [.text ⟨trimL t, false⟩],
    currentTextContent := none,
    currentTextContentStartIndex := 0,
    currentToolUse := some ⟨"read_file".toList, [], true⟩,
    currentToolUseStartIndex := t.length + 11,
    currentParamName := none, currentParamValueStartIndex := 0,
    accumulator := t ++ "<read_file>".toList }

/-- Loop invariant of `parseAssistantMessage`: every already-pushed block is
completed and trim-fixed, the open tool use (if any) is still marked partial
with trim-fixed parameters, the open text span (if any) is still marked
partial, and a tool use and a text span are never open simultaneously. -/
def stateInv (s : ParseState) : Prop :=
  (∀ b ∈ s.contentBlocks, blockPending b = false ∧ blockTrimmed b) ∧
  (∀ tu, s.currentToolUse = some tu → tu.isPartial = true ∧ paramsTrimmed tu.params) ∧
  (∀ tc, s.currentTextContent = some tc → tc.isPartial = true) ∧
  (s.currentToolUse = none ∨ s.currentTextContent = none)

/-- Parser state while a special parameter (`content`/`diff`) of `tool` is
open and `v` characters of its value have been consumed. -/
def paramState (tool par : List Char) (ps : List (List Char × List Char))
    (v : List Char) : ParseState :=
  { contentBlocks := [.text ⟨[], false⟩],
    currentTextContent := none,
    currentTextContentStartIndex := 0,
    currentToolUse := some ⟨tool, ps, true⟩,
    currentToolUseStartIndex := (openTag tool).length,
    currentParamName := some par,
    currentParamValueStartIndex := (openTag tool).length + (openTag par).length,
    accumulator := openTag tool ++ openTag par ++ v }

/-- Parser state in tool-body mode (no open parameter) with `w` consumed
after the `par` opening tag. -/
def toolBodyState (tool par : List Char) (ps : List (List Char × List Char))
    (w : List Char) : ParseState :=
  { contentBlocks := [.text ⟨[], false⟩],
    currentTextContent := none,
    currentTextContentStartIndex := 0,
    currentToolUse := some ⟨tool, ps, true⟩,
    currentToolUseStartIndex := (openTag tool).length,
    currentParamName := none,
    currentParamValueStartIndex := (openTag tool).length + (openTag par).length,
    accumulator := openTag tool ++ openTag par ++ w }

/-- The tags whose suffix-presence the tool-body loop probes for a special
`tool`/`par` pair: the tool's closing tag, the parameter's closing tag
(the fallback re-extraction trigger), and every parameter opening tag. -/
def checkedTags (tool par : List Char) : List (List Char) :=
  closeTag tool :: closeTag par :: toolParamNames.map openTag

/-- No probed tag is a suffix of the accumulator: the tool-body step only
accumulates. -/
def noTriggerTool (tool par acc : List Char) : Prop :=
  ∀ w ∈ checkedTags tool par, sfxB w acc = false

/-- The two parameter extractions with dedicated premature-closing-tag
handling in the source: `write_to_file`/`content` and
`replace_in_file`/`diff`. -/
def specialPair (tool par : List Char) : Prop :=
  (tool = wtfName ∧ par = contentName) ∨ (tool = rifName ∧ par = diffName)

deriving instance DecidableEq for Except

/-! ## Theorems -/

/-! ### C3: no-op compaction -/

/-- C3: whenever `analyzeConversation` reports `needsSummarization = false`,
`optimizeConversationHistory` returns the input history unchanged (same
messages, same order), `didSummarize = false`, and performs zero external
API calls (the returned result is independent of `api`). -/
theorem optimize_noop_of_not_needed (cm : ContextManager) (api : ApiHandler)
    (history : List MessageParam) (deletedRange : Option (ℤ × ℤ))
    (h : (analyzeConversation cm history).needsSummarization = false) :
    optimizeConversationHistory cm api history deletedRange =
      .ok ({ history := history, deletedRange := none, didSummarize := false,
             messagesReplaced := none, tokensBefore := none, tokensAfter := none,
             summaryBrief := none }, cm, 0) := by
  simp only [optimizeConversationHistory, h]
  rfl

/-- C3 witness at a concrete manager and history. -/
theorem optimize_noop_of_not_needed_witness :
    (analyzeConversation (ContextManager.create "m".toList 100)
        [⟨.user, .str "hi".toList⟩]).needsSummarization = false ∧
    optimizeConversationHistory (ContextManager.create "m".toList 100)
        ⟨fun _ _ => .ok []⟩ [⟨.user, .str "hi".toList⟩] none =
      .ok ({ history := [⟨.user, .str "hi".toList⟩], deletedRange := none,
             didSummarize := false, messagesReplaced := none, tokensBefore := none,
             tokensAfter := none, summaryBrief := none },
           ContextManager.create "m".toList 100, 0) :=
  ⟨by decide,
   optimize_noop_of_not_needed (ContextManager.create "m".toList 100)
     ⟨fun _ _ => .ok []⟩ [⟨.user, .str "hi".toList⟩] none (by decide)⟩

/-! ### C4: the summarization trigger rule -/

/-- C4: `analyzeConversation` reports `needsSummarization = true`
unconditionally once the total estimate exceeds the hard ceiling 60000
(whatever the configured budget); below the ceiling, when at least one
refresh has happened, it reports true exactly when growth since the last
refresh divided by the budget is at least 0.15 and utilization is at least
the base threshold, or utilization is at least the emergency threshold. -/
theorem analyzeConversation_needs_spec (cm : ContextManager)
    (msgs : List MessageParam) :
    ((analyzeConversation cm msgs).totalTokens > hardTokenLimit →
      (analyzeConversation cm msgs).needsSummarization = true) ∧
    ((analyzeConversation cm msgs).totalTokens ≤ hardTokenLimit →
      cm.memoryRefreshCount ≠ 0 →
      ((analyzeConversation cm msgs).needsSummarization = true ↔
        ((((analyzeConversation cm msgs).totalTokens -
             cm.lastMemoryRefreshTokenCount : ℤ) : ℚ) / cm.maxContextLength ≥
            15/100 ∧
          (analyzeConversation cm msgs).utilizationPercentage ≥
            cm.memoryThreshold) ∨
        (analyzeConversation cm msgs).utilizationPercentage ≥
          cm.emergencyThreshold)) := by
  constructor
  · intro hgt
    simp only [analyzeConversation] at hgt ⊢
    simp [hgt]
  · intro hle hcnt
    simp only [analyzeConversation] at hle ⊢
    rw [if_neg (by omega), if_neg hcnt]
    simp

/-- C4 witness: both conjuncts applied at concrete inputs. -/
theorem analyzeConversation_needs_spec_witness :
    ((analyzeConversation (ContextManager.create "m".toList 1000000)
        [⟨.user, .blocks [.toolUse 140000]⟩]).totalTokens > hardTokenLimit ∧
      (analyzeConversation (ContextManager.create "m".toList 1000000)
        [⟨.user, .blocks [.toolUse 140000]⟩]).needsSummarization = true) ∧
    ((analyzeConversation
        { ContextManager.create "m".toList 100 with memoryRefreshCount := 1 }
        [⟨.user, .str "hi".toList⟩]).needsSummarization = false) := by
  refine ⟨⟨by decide, ?_⟩, ?_⟩
  · exact (analyzeConversation_needs_spec
      (ContextManager.create "m".toList 1000000)
      [⟨.user, .blocks [.toolUse 140000]⟩]).1 (by decide)
  · have h := (analyzeConversation_needs_spec
      { ContextManager.create "m".toList 100 with memoryRefreshCount := 1 }
      [⟨.user, .str "hi".toList⟩]).2 (by decide) (by decide)
    rw [Bool.eq_false_iff]
    intro hx
    have := h.mp hx
    revert this
    decide

/-! ### C9: threshold monotonicity -/

/-- C9 (amended): with the constructor's thresholds, `needsSummarization` is
false whenever utilization is below the base threshold *and* the total
estimate does not exceed the hard ceiling 60000; it is true whenever
utilization is above the emergency threshold. -/
theorem analyzeConversation_threshold_spec (cm : ContextManager)
    (hbase : cm.memoryThreshold = 6/10) (hem : cm.emergencyThreshold = 8/10)
    (msgs : List MessageParam) :
    ((analyzeConversation cm msgs).utilizationPercentage < cm.memoryThreshold →
      (analyzeConversation cm msgs).totalTokens ≤ hardTokenLimit →
      (analyzeConversation cm msgs).needsSummarization = false) ∧
    ((analyzeConversation cm msgs).utilizationPercentage > cm.emergencyThreshold →
      (analyzeConversation cm msgs).needsSummarization = true) := by
  constructor
  · intro hu hle
    simp only [analyzeConversation] at hu hle ⊢
    rw [if_neg (by omega)]
    by_cases hcnt : cm.memoryRefreshCount = 0
    · rw [if_pos hcnt]
      simp only [decide_eq_false_iff_not, not_le]
      exact hu
    · rw [if_neg hcnt]
      simp only [decide_eq_false_iff_not, not_or, not_and, not_le]
      refine ⟨fun _ => hu, ?_⟩
      calc (((msgs.map estimateTokenCount).sum : ℚ) / cm.maxContextLength)
          < cm.memoryThreshold := hu
        _ ≤ cm.emergencyThreshold := by rw [hbase, hem]; norm_num
  · intro hu
    simp only [analyzeConversation] at hu ⊢
    by_cases hgt : (msgs.map estimateTokenCount).sum > hardTokenLimit
    · rw [if_pos hgt]
    · rw [if_neg hgt]
      by_cases hcnt : cm.memoryRefreshCount = 0
      · rw [if_pos hcnt]
        simp only [decide_eq_true_eq]
        calc cm.memoryThreshold ≤ cm.emergencyThreshold := by
              rw [hbase, hem]; norm_num
          _ ≤ _ := le_of_lt hu
      · rw [if_neg hcnt]
        simp only [decide_eq_true_eq]
        exact Or.inr (le_of_lt hu)

/-- C9 witness: both conjuncts applied at concrete managers and histories. -/
theorem analyzeConversation_threshold_spec_witness :
    (analyzeConversation (ContextManager.create "m".toList 100)
        [⟨.user, .str "hi".toList⟩]).needsSummarization = false ∧
    (analyzeConversation (ContextManager.create "m".toList 100)
        [⟨.user, .blocks [.toolUse 400]⟩]).needsSummarization = true :=
  ⟨(analyzeConversation_threshold_spec (ContextManager.create "m".toList 100)
      rfl rfl [⟨.user, .str "hi".toList⟩]).1 (by decide) (by decide),
   (analyzeConversation_threshold_spec (ContextManager.create "m".toList 100)
      rfl rfl [⟨.user, .blocks [.toolUse 400]⟩]).2 (by decide)⟩

/-- C9 counterexample: a history whose estimate exceeds the hard ceiling on a
large budget sits far below the base threshold, yet `needsSummarization` is
true — "false below the base threshold for all configured budgets" fails. -/
theorem analyzeConversation_hard_limit_beats_base :
    (analyzeConversation (ContextManager.create "m".toList 1000000)
        [⟨.user, .blocks [.toolUse 140000]⟩]).utilizationPercentage <
      (ContextManager.create "m".toList 1000000).memoryThreshold ∧
    (analyzeConversation (ContextManager.create "m".toList 1000000)
        [⟨.user, .blocks [.toolUse 140000]⟩]).needsSummarization = true := by
  decide

/-! ### C6: malformed decision payloads -/

/-- C6: on a decision payload whose indices JSON is malformed (`[1,,2]`),
`parseMemoryDecision` does not fail, but its deterministic fallback keeps
message indices `0..9` — the *first* ten messages — not the most recent ten
(which for a 20-message history would be `10..19`), contradicting both the
claim and the code's own comment. -/
theorem parseMemoryDecision_malformed_keeps_first_ten :
    parseMemoryDecision
        "INDICES_TO_KEEP: [1,,2]\nSUMMARY_INSTRUCTIONS: Keep code.".toList =
      { messagesToKeepIndices := List.range 10
        summaryInstructions := defaultSummaryInstructions } ∧
    List.range 10 ≠ (List.range 20).drop 10 := by
  decide

/-! ### C7: failure propagation of the compactor -/

/-- C7 counterexample: with every API call failing and a history that needs
summarization, `optimizeConversationHistory` returns the error itself —
the summarization failure escapes to the caller instead of being replaced
by a placeholder. -/
theorem optimize_propagates_summarization_failure :
    optimizeConversationHistory (ContextManager.create "m".toList 100)
        ⟨fun _ _ => .error ⟨"boom".toList⟩⟩
        [⟨.user, .blocks [.toolUse 400]⟩] none =
      .error ⟨"boom".toList⟩ := by
  decide

/-- C7 (amended): the legacy `createMemoryStructure` is the path with a
try/catch — it never fails, and under a failing API it returns the fixed
fallback structure; the `optimizeConversationHistory` path, in contrast,
propagates any API failure to its caller. -/
theorem createMemoryStructure_catches_failures :
    (∀ (api : ApiHandler) (msgs : List MessageParam) (strat : MemoryStrategy),
      ∃ s, createMemoryStructure api msgs strat = .ok s) ∧
    (∀ (api : ApiHandler) (msgs : List MessageParam) (strat : MemoryStrategy)
        (e : ApiError), (∀ sys usr, api.respond sys usr = .error e) →
      createMemoryStructure api msgs strat = .ok fallbackMemoryStructure) ∧
    (∀ (cm : ContextManager) (api : ApiHandler) (h : List MessageParam)
        (dr : Option (ℤ × ℤ)) (e : ApiError),
      (∀ sys usr, api.respond sys usr = .error e) →
      (analyzeConversation cm h).needsSummarization = true →
      optimizeConversationHistory cm api h dr = .error e) := by
  refine ⟨fun api msgs strat => ?_, fun api msgs strat e he => ?_,
          fun cm api h dr e he hneeds => ?_⟩
  · cases hr : api.respond organizingSystemPrompt
        (strategyMarker strat ++
          "\n\nAs an AI assistant, I need to organize my memory of our conversation (".toList ++
          (toString msgs.length).toList ++ " messages).".toList) with
    | ok s => exact ⟨s, by simp only [createMemoryStructure]; rw [hr]⟩
    | error s =>
      exact ⟨fallbackMemoryStructure, by simp only [createMemoryStructure]; rw [hr]⟩
  · simp only [createMemoryStructure, he]
  · simp only [optimizeConversationHistory, hneeds, he]
    rfl

/-- C7 witness: the amended statement applied at a concrete failing API. -/
theorem createMemoryStructure_catches_failures_witness :
    createMemoryStructure ⟨fun _ _ => .error ⟨"boom".toList⟩⟩ [] .light =
      .ok fallbackMemoryStructure ∧
    optimizeConversationHistory (ContextManager.create "m".toList 100)
        ⟨fun _ _ => .error ⟨"down".toList⟩⟩
        [⟨.user, .blocks [.toolUse 400]⟩] none =
      .error ⟨"down".toList⟩ :=
  ⟨createMemoryStructure_catches_failures.2.1 _ [] .light ⟨"boom".toList⟩
      (fun _ _ => rfl),
   createMemoryStructure_catches_failures.2.2 _ _ _ none ⟨"down".toList⟩
      (fun _ _ => rfl) (by decide)⟩

/-! ### C5: preservation of the task-defining first message -/

theorem headD_mem_of_ne_nil {h : List MessageParam} (hne : h ≠ []) :
    h.headD RangeCM.defaultMessage ∈ h := by
  cases h with
  | nil => exact absurd rfl hne
  | cons a t => simp

theorem headD_mem_filterByIndexMem (h : List MessageParam) (idxs : List ℕ)
    (hne : h ≠ []) (h0 : 0 ∈ idxs) :
    h.headD RangeCM.defaultMessage ∈ filterByIndexMem h idxs true := by
  cases h with
  | nil => exact absurd rfl hne
  | cons a t =>
    simp only [filterByIndexMem, List.headD_cons]
    refine List.mem_map.mpr ⟨(0, a), List.mem_filter.mpr ⟨?_, by simpa using h0⟩, rfl⟩
    exact List.mem_cons_self (0, a) (t.enumFrom 1)

theorem except_ok_bind {ε α β : Type} (a : α) (f : α → Except ε β) :
    ((Except.ok a : Except ε α) >>= f) = f a := rfl

theorem except_error_bind {ε α β : Type} (e : ε) (f : α → Except ε β) :
    ((Except.error e : Except ε α) >>= f) = Except.error e := rfl

theorem except_pure_eq_ok {ε α : Type} (a : α) :
    (pure a : Except ε α) = Except.ok a := rfl

/-- C5 (amended): range-based compaction always keeps the first (task)
message of a non-empty history in the returned history; decision-based
compaction keeps it exactly as dictated by the LLM decision — whenever the
parsed decision's kept indices contain index 0, the first message survives
(when they do not, it is removed; see the counterexample). -/
theorem compaction_first_message (cm : ContextManager)
    (rcm : RangeCM.ContextManager) (api : ApiHandler)
    (h : List MessageParam) (dr : Option (ℤ × ℤ)) (dtext : List Char)
    (hne : h ≠ [])
    (hdec : api.respond organizingSystemPrompt
        (createMemoryDecisionPrompt h
          (getMemoryStrategy cm
            (analyzeConversation cm h).utilizationPercentage)) = .ok dtext)
    (h0 : 0 ∈ (parseMemoryDecision dtext).messagesToKeepIndices) :
    (h.headD RangeCM.defaultMessage ∈
      (RangeCM.optimizeConversationHistory rcm api h dr).history) ∧
    (match optimizeConversationHistory cm api h dr with
     | .ok r => h.headD RangeCM.defaultMessage ∈ r.1.history
     | .error _ => True) := by
  constructor
  · unfold RangeCM.optimizeConversationHistory
    by_cases hneed :
        (RangeCM.analyzeConversation rcm h).needsSummarization = false
    · rw [if_pos hneed]
      exact headD_mem_of_ne_nil hne
    · rw [if_neg hneed]
      by_cases hempty :
          (jsSlice h ((RangeCM.getMessageRange h dr
            (RangeCM.getSummarizationStrategy
              (RangeCM.analyzeConversation rcm h).utilizationPercentage)).1 : ℕ)
            ((RangeCM.getMessageRange h dr
              (RangeCM.getSummarizationStrategy
                (RangeCM.analyzeConversation rcm h).utilizationPercentage)).2 + 1)).length = 0
      · simp only [hempty, if_pos]
        exact headD_mem_of_ne_nil hne
      · simp only [hempty, if_neg, reduceIte]
        exact List.mem_cons_self _ _
  · unfold optimizeConversationHistory
    by_cases hneed : (analyzeConversation cm h).needsSummarization = false
    · simp only [hneed, reduceIte]
      exact headD_mem_of_ne_nil hne
    · simp only [hneed, Bool.true_eq_false, reduceIte, hdec, except_ok_bind]
      cases hmsp : createMemoryStructurePrompt api
          (filterByIndexMem h
            (parseMemoryDecision dtext).messagesToKeepIndices false)
          (parseMemoryDecision dtext).summaryInstructions with
      | error e =>
        rw [except_error_bind]
        trivial
      | ok p =>
        obtain ⟨pp, nn⟩ := p
        rw [except_ok_bind]
        simp only []
        cases hmst : api.respond organizingSystemPrompt pp with
        | error e =>
          rw [except_error_bind]
          trivial
        | ok t =>
          rw [except_ok_bind, except_pure_eq_ok]
          exact List.mem_cons_of_mem _ (headD_mem_filterByIndexMem h _ hne h0)

/-- C5 witness: both compactors applied at a concrete history and a decision
that keeps index 0. -/
theorem compaction_first_message_witness :
    ((⟨.user, .blocks [.toolUse 400]⟩ : MessageParam) ∈
      (RangeCM.optimizeConversationHistory
        (RangeCM.ContextManager.create "m".toList 100)
        ⟨fun _ _ => .ok "INDICES_TO_KEEP: [0, 1]\nSUMMARY_INSTRUCTIONS: keep code".toList⟩
        [⟨.user, .blocks [.toolUse 400]⟩, ⟨.assistant, .str "ok".toList⟩]
        none).history) ∧
    (match optimizeConversationHistory (ContextManager.create "m".toList 100)
        ⟨fun _ _ => .ok "INDICES_TO_KEEP: [0, 1]\nSUMMARY_INSTRUCTIONS: keep code".toList⟩
        [⟨.user, .blocks [.toolUse 400]⟩, ⟨.assistant, .str "ok".toList⟩] none with
     | .ok r =>
       (([⟨.user, .blocks [.toolUse 400]⟩, ⟨.assistant, .str "ok".toList⟩] :
          List MessageParam).headD RangeCM.defaultMessage) ∈ r.1.history
     | .error _ => True) :=
  compaction_first_message (ContextManager.create "m".toList 100)
    (RangeCM.ContextManager.create "m".toList 100)
    ⟨fun _ _ => .ok "INDICES_TO_KEEP: [0, 1]\nSUMMARY_INSTRUCTIONS: keep code".toList⟩
    [⟨.user, .blocks [.toolUse 400]⟩, ⟨.assistant, .str "ok".toList⟩]
    none "INDICES_TO_KEEP: [0, 1]\nSUMMARY_INSTRUCTIONS: keep code".toList
    (by decide) rfl (by decide)

/-- C5 counterexample: a full decision-based compaction run whose LLM
decision keeps only index 1.  The compaction summarizes (didSummarize is
true) and the returned history no longer contains the task-defining first
message of the input history. -/
theorem optimize_drops_task_message :
    (optimizeConversationHistory (ContextManager.create "m".toList 100)
        ⟨fun _ _ => .ok "INDICES_TO_KEEP: [1]\nSUMMARY_INSTRUCTIONS: keep code".toList⟩
        [⟨.user, .blocks [.toolUse 400]⟩, ⟨.assistant, .str "ok".toList⟩]
        none).toOption.map
      (fun r => (r.1.didSummarize,
        decide ((⟨.user, .blocks [.toolUse 400]⟩ : MessageParam) ∈ r.1.history))) =
      some (true, false) := by
  decide

/-! ### Parser invariant lemmas -/

theorem dropWhile_dropWhile (p : Char → Bool) (l : List Char) :
    (l.dropWhile p).dropWhile p = l.dropWhile p := by
  induction l with
  | nil => rfl
  | cons a t ih =>
    by_cases h : p a
    · rw [List.dropWhile_cons_of_pos h]; exact ih
    · rw [List.dropWhile_cons_of_neg h, List.dropWhile_cons_of_neg h]

theorem head_of_dropWhile_false (p : Char → Bool) :
    ∀ (l : List Char) (a : Char) (t : List Char),
      l.dropWhile p = a :: t → p a = false := by
  intro l
  induction l with
  | nil => intro a t h; cases h
  | cons x xs ih =>
    intro a t h
    by_cases hx : p x
    · rw [List.dropWhile_cons_of_pos hx] at h; exact ih a t h
    · rw [List.dropWhile_cons_of_neg hx] at h
      injection h with h1 h2
      subst h1
      simpa using hx

theorem dropWhile_sfx_exists (p : Char → Bool) (l : List Char) :
    ∃ t, t ++ l.dropWhile p = l := by
  induction l with
  | nil => exact ⟨[], rfl⟩
  | cons a l ih =>
    by_cases h : p a
    · obtain ⟨t, ht⟩ := ih
      exact ⟨a :: t, by rw [List.dropWhile_cons_of_pos h, List.cons_append, ht]⟩
    · exact ⟨[], by rw [List.dropWhile_cons_of_neg h, List.nil_append]⟩

theorem dropWhile_trimL (l : List Char) :
    (trimL l).dropWhile jsWS = trimL l := by
  cases hT : trimL l with
  | nil => rfl
  | cons a t =>
    have ha : jsWS a = false := by
      have hne : ((l.dropWhile jsWS).reverse.dropWhile jsWS) ≠ [] := by
        intro hnil
        rw [trimL, hnil] at hT
        cases hT
      obtain ⟨pre, hpre⟩ := dropWhile_sfx_exists jsWS (l.dropWhile jsWS).reverse
      have hlast : ((l.dropWhile jsWS).reverse.dropWhile jsWS).getLast? =
          (l.dropWhile jsWS).reverse.getLast? := by
        conv_rhs => rw [← hpre]
        rw [List.getLast?_append_of_ne_nil pre hne]
      have hhead : (trimL l).head? = (l.dropWhile jsWS).head? := by
        rw [trimL, List.head?_reverse, hlast, List.getLast?_reverse]
      rw [hT] at hhead
      cases hA : l.dropWhile jsWS with
      | nil => rw [hA] at hhead; cases hhead
      | cons x xs =>
        rw [hA] at hhead
        have hx := head_of_dropWhile_false jsWS l x xs hA
        injection hhead with h1
        rw [h1]
        exact hx
    rw [List.dropWhile_cons_of_neg (by simp [ha])]

theorem trimL_reverse_dropWhile (l : List Char) :
    (trimL l).reverse.dropWhile jsWS = (trimL l).reverse := by
  show ((((l.dropWhile jsWS).reverse.dropWhile jsWS).reverse).reverse).dropWhile jsWS = _
  rw [List.reverse_reverse, dropWhile_dropWhile, trimL, List.reverse_reverse]

theorem trimL_idem (l : List Char) : trimL (trimL l) = trimL l := by
  show (((trimL l).dropWhile jsWS).reverse.dropWhile jsWS).reverse = trimL l
  rw [dropWhile_trimL, trimL_reverse_dropWhile, List.reverse_reverse]

theorem paramsTrimmed_setParam (ps : List (List Char × List Char))
    (k v : List Char) (hps : paramsTrimmed ps) (hv : trimL v = v) :
    paramsTrimmed (setParam ps k v) := by
  unfold setParam
  split_ifs with h
  · intro p hp
    obtain ⟨q, hq, hpq⟩ := List.mem_map.mp hp
    by_cases hqk : (q.1 == k) = true
    · rw [if_pos hqk] at hpq
      rw [← hpq]
      exact hv
    · rw [if_neg hqk] at hpq
      rw [← hpq]
      exact hps q hq
  · intro p hp
    rcases List.mem_append.mp hp with h1 | h2
    · exact hps p h1
    · rw [List.mem_singleton.mp h2]
      exact hv

theorem paramsTrimmed_nil : paramsTrimmed [] := by
  intro p hp
  cases hp

theorem stateInv_init : stateInv initState := by
  refine ⟨?_, ?_, ?_, Or.inl rfl⟩ <;> intro x hx <;> cases hx

/-- Both content/diff fallbacks either keep the tool use or replace one
parameter with a trimmed value: partiality and trimmedness survive. -/
theorem toolUse_fallback_ok {P Q : Prop} [Decidable P] [Decidable Q]
    (x : ToolUse) (k v : List Char)
    (h1 : x.isPartial = true) (h2 : paramsTrimmed x.params) :
    (if P then (if Q then { x with params := setParam x.params k (trimL v) }
                else x) else x).isPartial = true ∧
    paramsTrimmed (if P then
        (if Q then { x with params := setParam x.params k (trimL v) } else x)
      else x).params := by
  split_ifs with hP hQ
  · exact ⟨h1, paramsTrimmed_setParam _ _ _ h2 (trimL_idem _)⟩
  · exact ⟨h1, h2⟩
  · exact ⟨h1, h2⟩

theorem stateInv_step (s : ParseState) (c : Char) (h : stateInv s) :
    stateInv (step s c) := by
  obtain ⟨hBlocks, hTool, hText, hExcl⟩ := h
  cases htu : s.currentToolUse with
  | some tu =>
    have htup := hTool tu htu
    have hTC : s.currentTextContent = none := by
      rcases hExcl with h1 | h2
      · rw [htu] at h1; cases h1
      · exact h2
    cases hpn : s.currentParamName with
    | some pn =>
      simp only [step, htu, hpn]
      split
      · split
        · -- write_to_file content: closing tag found, value stored trimmed
          exact ⟨hBlocks,
            (fun tu' h' => by
              injection h' with h''
              subst h''
              exact ⟨htup.1, paramsTrimmed_setParam _ _ _ htup.2 (trimL_idem _)⟩),
            (fun tc h' => hText tc h'), Or.inr hTC⟩
        · exact ⟨hBlocks,
            (fun tu' h' => by injection h' with h''; subst h''; exact htup),
            (fun tc h' => hText tc h'), Or.inr hTC⟩
      · split
        · split
          · -- replace_in_file diff: closing tag found
            exact ⟨hBlocks,
              (fun tu' h' => by
                injection h' with h''
                subst h''
                exact ⟨htup.1, paramsTrimmed_setParam _ _ _ htup.2 (trimL_idem _)⟩),
              (fun tc h' => hText tc h'), Or.inr hTC⟩
          · exact ⟨hBlocks,
              (fun tu' h' => by injection h' with h''; subst h''; exact htup),
              (fun tc h' => hText tc h'), Or.inr hTC⟩
        · split
          · -- regular closing: value stored trimmed
            exact ⟨hBlocks,
              (fun tu' h' => by
                injection h' with h''
                subst h''
                exact ⟨htup.1, paramsTrimmed_setParam _ _ _ htup.2 (trimL_idem _)⟩),
              (fun tc h' => hText tc h'), Or.inr hTC⟩
          · exact ⟨hBlocks,
              (fun tu' h' => by injection h' with h''; subst h''; exact htup),
              (fun tc h' => hText tc h'), Or.inr hTC⟩
    | none =>
      simp only [step, htu, hpn]
      split
      · -- end of the tool use: pushed completed and trim-fixed
        refine ⟨?_, (fun tu' h' => by cases h'), (fun tc h' => hText tc h'), Or.inl rfl⟩
        intro b hb
        rcases List.mem_append.mp hb with h1 | h2
        · exact hBlocks b h1
        · rw [List.mem_singleton.mp h2]
          exact ⟨rfl, htup.2⟩
      · -- accumulating inside the tool use (possible param start, fallbacks)
        cases hf : toolParamNames.find?
            (fun pname => sfxB (openTag pname) (s.accumulator ++ [c])) with
        | some pname =>
          refine ⟨hBlocks, fun tu' h' => ?_, fun tc h' => hText tc h', Or.inr hTC⟩
          injection h' with h''
          subst h''
          exact toolUse_fallback_ok _ _ _
            (toolUse_fallback_ok _ _ _ htup.1 htup.2).1
            (toolUse_fallback_ok _ _ _ htup.1 htup.2).2
        | none =>
          refine ⟨hBlocks, fun tu' h' => ?_, fun tc h' => hText tc h', Or.inr hTC⟩
          injection h' with h''
          subst h''
          exact toolUse_fallback_ok _ _ _
            (toolUse_fallback_ok _ _ _ htup.1 htup.2).1
            (toolUse_fallback_ok _ _ _ htup.1 htup.2).2
  | none =>
    simp only [step, htu]
    split
    · -- a tool use starts: close and push the text span (if any)
      refine ⟨?_,
        (fun tu' h' => by
          injection h' with h''
          subst h''
          exact ⟨rfl, paramsTrimmed_nil⟩),
        (fun tc h' => by cases h'), Or.inr rfl⟩
      intro b hb
      cases htc : s.currentTextContent with
      | some tc =>
        rw [htc] at hb
        rcases List.mem_append.mp hb with h1 | h2
        · exact hBlocks b h1
        · rw [List.mem_singleton.mp h2]
          exact ⟨rfl, trivial⟩
      | none =>
        rw [htc] at hb
        exact hBlocks b hb
    · -- plain text accumulation
      refine ⟨hBlocks, (fun tu' h' => by cases h'),
        (fun tc h' => by injection h' with h''; subst h''; rfl), Or.inl rfl⟩

theorem stateInv_fold (l : List Char) (s : ParseState) (h : stateInv s) :
    stateInv (l.foldl step s) := by
  induction l generalizing s with
  | nil => exact h
  | cons c t ih => exact ih (step s c) (stateInv_step s c h)

/-- The output of a parse pass splits into completed, trim-fixed blocks
followed by at most one trailing (partial) block, itself trim-fixed. -/
theorem parse_decomp (input : List Char) :
    ∃ done tail, parseAssistantMessage input = done ++ tail ∧
      (∀ b ∈ done, blockPending b = false ∧ blockTrimmed b) ∧
      tail.length ≤ 1 ∧ (∀ b ∈ tail, blockTrimmed b) := by
  obtain ⟨hBlocks, hTool, hText, hExcl⟩ :=
    stateInv_fold input initState stateInv_init
  cases htu : (input.foldl step initState).currentToolUse with
  | some tu =>
    have htup := hTool tu htu
    have hTC : (input.foldl step initState).currentTextContent = none := by
      rcases hExcl with h1 | h2
      · rw [htu] at h1; cases h1
      · exact h2
    cases hpn : (input.foldl step initState).currentParamName with
    | some pn =>
      refine ⟨(input.foldl step initState).contentBlocks,
        [AssistantMessageContent.toolUse
          { tu with
              params :=
                setParam tu.params pn
                  (trimL (jsSliceFrom (input.foldl step initState).accumulator
                    (input.foldl step initState).currentParamValueStartIndex)) }],
        ?_, hBlocks, by simp, ?_⟩
      · simp only [parseAssistantMessage, htu, hpn, hTC]
      · intro b hb
        rw [List.mem_singleton.mp hb]
        exact paramsTrimmed_setParam _ _ _ htup.2 (trimL_idem _)
    | none =>
      refine ⟨(input.foldl step initState).contentBlocks,
        [AssistantMessageContent.toolUse tu], ?_, hBlocks, by simp, ?_⟩
      · simp only [parseAssistantMessage, htu, hpn, hTC]
      · intro b hb
        rw [List.mem_singleton.mp hb]
        exact htup.2
  | none =>
    cases htc : (input.foldl step initState).currentTextContent with
    | some tc =>
      refine ⟨(input.foldl step initState).contentBlocks, [.text tc], ?_,
        hBlocks, by simp, ?_⟩
      · simp only [parseAssistantMessage, htu, htc]
      · intro b hb
        rw [List.mem_singleton.mp hb]
        exact trivial
    | none =>
      refine ⟨(input.foldl step initState).contentBlocks, [], ?_, hBlocks,
        by simp, by intro b hb; cases hb⟩
      simp only [parseAssistantMessage, htu, htc, List.append_nil]

/-! ### C2: at most one partial block, always last -/

/-- C2: for every input (truncated streams included), the block sequence of
`parseAssistantMessage` has at most one block with `partial = true`, and
no block before the final position is partial — so a partial block, when
present, is the last element. -/
theorem parseAssistantMessage_single_pending (input : List Char) :
    (parseAssistantMessage input).countP blockPending ≤ 1 ∧
    ∀ b ∈ (parseAssistantMessage input).dropLast, blockPending b = false := by
  obtain ⟨done, tail, hEq, hDone, hLen, _⟩ := parse_decomp input
  rw [hEq]
  constructor
  · rw [List.countP_append]
    have h1 : done.countP blockPending = 0 :=
      List.countP_eq_zero.mpr (fun b hb => by simp [(hDone b hb).1])
    have h2 : tail.countP blockPending ≤ tail.length := List.countP_le_length _
    omega
  · intro b hb
    cases htl : tail with
    | nil =>
      rw [htl, List.append_nil] at hb
      exact (hDone b (List.dropLast_subset _ hb)).1
    | cons x xs =>
      have hxs : xs = [] := by
        rw [htl] at hLen
        simp at hLen
        exact hLen
      rw [htl, hxs] at hb
      rw [List.dropLast_concat] at hb
      exact (hDone b hb).1

/-! ### C10: stored parameter values are whitespace-trimmed -/

/-- C10: every parameter value stored in any ToolUse block returned by
`parseAssistantMessage` — partial or complete — is trim-fixed: trimming it
again changes nothing, i.e. it has no leading or trailing whitespace. -/
theorem parseAssistantMessage_params_trimmed (input : List Char) :
    ∀ tu, AssistantMessageContent.toolUse tu ∈ parseAssistantMessage input →
      ∀ p ∈ tu.params, trimL p.2 = p.2 := by
  obtain ⟨done, tail, hEq, hDone, _, hTail⟩ := parse_decomp input
  rw [hEq]
  intro tu htu p hp
  rcases List.mem_append.mp htu with h1 | h2
  · exact (hDone _ h1).2 p hp
  · exact hTail _ h2 p hp

/-- C2 witness: a truncated stream, with the membership hypothesis
discharged at the non-final text block. -/
theorem parseAssistantMessage_single_pending_witness :
    (parseAssistantMessage "hi<read_file>".toList).countP blockPending ≤ 1 ∧
    blockPending (.text ⟨"hi".toList, false⟩) = false :=
  ⟨(parseAssistantMessage_single_pending "hi<read_file>".toList).1,
   (parseAssistantMessage_single_pending "hi<read_file>".toList).2 _ (by decide)⟩

/-- C10 witness: a stored `path` value arrives padded with whitespace and is
trim-fixed in the produced block. -/
theorem parseAssistantMessage_params_trimmed_witness :
    trimL "a.ts".toList = "a.ts".toList :=
  parseAssistantMessage_params_trimmed "<read_file><path> a.ts </path>".toList
    { name := "read_file".toList,
      params := [("path".toList, "a.ts".toList)], isPartial := true }
    (by decide) ("path".toList, "a.ts".toList) (by decide)

/-! ### Suffix and prefix infrastructure -/

theorem pfxB_iff : ∀ (w l : List Char), pfxB w l = true ↔ ∃ t, w ++ t = l := by
  intro w
  induction w with
  | nil =>
    intro l
    simp only [pfxB, List.nil_append]
    exact ⟨fun _ => ⟨l, rfl⟩, fun _ => trivial⟩
  | cons a w ih =>
    intro l
    cases l with
    | nil =>
      simp only [pfxB]
      constructor
      · intro h; cases h
      · rintro ⟨t, ht⟩; cases ht
    | cons b l =>
      simp only [pfxB, Bool.and_eq_true, beq_iff_eq]
      constructor
      · rintro ⟨hab, hp⟩
        obtain ⟨t, ht⟩ := (ih l).mp hp
        exact ⟨t, by rw [List.cons_append, hab, ht]⟩
      · rintro ⟨t, ht⟩
        rw [List.cons_append] at ht
        injection ht with h1 h2
        exact ⟨h1, (ih l).mpr ⟨t, h2⟩⟩

theorem sfxB_iff (w l : List Char) : sfxB w l = true ↔ ∃ p, p ++ w = l := by
  unfold sfxB
  rw [pfxB_iff]
  constructor
  · rintro ⟨t, ht⟩
    refine ⟨t.reverse, ?_⟩
    have h := congrArg List.reverse ht
    rw [List.reverse_append, List.reverse_reverse, List.reverse_reverse] at h
    exact h
  · rintro ⟨p, hp⟩
    refine ⟨p.reverse, ?_⟩
    rw [← hp, List.reverse_append]

theorem find?_eq_some_of_unique {α : Type} (p : α → Bool) :
    ∀ (l : List α) (a : α), a ∈ l → p a = true →
      (∀ b ∈ l, p b = true → b = a) → l.find? p = some a := by
  intro l
  induction l with
  | nil => intro a ha; cases ha
  | cons x xs ih =>
    intro a ha hp huniq
    by_cases hx : p x = true
    · have hxa : x = a := huniq x (List.mem_cons_self _ _) hx
      rw [List.find?_cons_of_pos _ hx, hxa]
    · rw [List.find?_cons_of_neg _ (by simpa using hx)]
      rcases List.mem_cons.mp ha with h1 | h2
      · subst h1; exact absurd hp hx
      · exact ih a h2 hp (fun b hb hpb => huniq b (List.mem_cons_of_mem _ hb) hpb)

/-- A suffix of `γ ++ δ` is a suffix of `δ`, or extends past the boundary:
`w = w' ++ δ` with `w'` a non-empty suffix of `γ`. -/
theorem sfx_append_split {w γ δ : List Char} (h : ∃ p, p ++ w = γ ++ δ) :
    (∃ p, p ++ w = δ) ∨ (∃ w', w' ≠ [] ∧ w = w' ++ δ ∧ ∃ p, p ++ w' = γ) := by
  obtain ⟨p, hp⟩ := h
  rcases List.append_eq_append_iff.mp hp with ⟨a', ha1, ha2⟩ | ⟨c', hc1, hc2⟩
  · cases a' with
    | nil =>
      left
      exact ⟨[], by rw [List.nil_append]; rw [List.nil_append] at ha2; exact ha2⟩
    | cons x xs => right; exact ⟨x :: xs, by simp, ha2, p, ha1.symm⟩
  · left; exact ⟨c', hc2.symm⟩

theorem openTag_head (n : List Char) : (openTag n).head? = some '<' := rfl

theorem sfx_false_of_noLT {w l : List Char} (hl : noLT l)
    (hw : w.head? = some '<') : sfxB w l = false := by
  by_contra hc
  rw [Bool.not_eq_false] at hc
  obtain ⟨p, hp⟩ := (sfxB_iff _ _).mp hc
  cases w with
  | nil => cases hw
  | cons a w' =>
    injection hw with h1
    subst h1
    exact hl (hp ▸ List.mem_append_right p (List.mem_cons_self _ _))

theorem noLT_take {t : List Char} (h : noLT t) (k : ℕ) : noLT (t.take k) :=
  fun hc => h (List.take_subset k t hc)

/-! ### C8 phase lemmas: text, then `<read_file>` -/

theorem read_file_factA : ∀ j, j ≤ 10 → ∀ n ∈ toolUseNames,
    sfxB (openTag n) ("<read_file>".toList.take j) = false := by decide

theorem read_file_factB : ∀ n ∈ toolUseNames,
    sfxB (openTag n) "<read_file>".toList = true → n = "read_file".toList := by
  decide

theorem noTag_text_appendTag (t : List Char) (hlt : noLT t) (j : ℕ)
    (hj : j ≤ 10) :
    ∀ n ∈ toolUseNames,
      sfxB (openTag n) (t ++ "<read_file>".toList.take j) = false := by
  intro n hn
  by_contra hc
  rw [Bool.not_eq_false] at hc
  rcases sfx_append_split ((sfxB_iff _ _).mp hc) with ⟨p, hp⟩ | ⟨w', hne, hw, p, hp⟩
  · have h2 : sfxB (openTag n) ("<read_file>".toList.take j) = true :=
      (sfxB_iff _ _).mpr ⟨p, hp⟩
    rw [read_file_factA j hj n hn] at h2
    cases h2
  · cases w' with
    | nil => exact absurd rfl hne
    | cons a w'' =>
      have ha : a = '<' := by
        have h3 : (openTag n).head? = some a := by rw [hw]; rfl
        rw [openTag_head] at h3
        injection h3 with h4
        exact h4.symm
      subst ha
      exact hlt (hp ▸ List.mem_append_right p (List.mem_cons_self _ _))

/-- Running the parser over text that never completes a tool opening tag
keeps it in text mode, with the span content being the trim of everything
so far. -/
theorem text_run_gen (u : List Char)
    (hno : ∀ k, k < u.length → ∀ n ∈ toolUseNames,
      sfxB (openTag n) (u.take (k + 1)) = false) :
    u.foldl step initState = textState u := by
  induction u using List.reverseRecOn with
  | nil => rfl
  | append_singleton l a ih =>
    rw [List.foldl_append, List.foldl_cons, List.foldl_nil]
    have hl : l.foldl step initState = textState l := by
      refine ih (fun k hk n hn => ?_)
      have h := hno k (by rw [List.length_append]; simp; omega) n hn
      rwa [List.take_append_of_le_length (by omega)] at h
    rw [hl]
    have hfind : toolUseNames.find?
        (fun tname => sfxB (openTag tname) (l ++ [a])) = none := by
      rw [List.find?_eq_none]
      intro n hn
      have h := hno l.length (by simp) n hn
      rw [List.take_of_length_le (by simp)] at h
      simp [h]
    by_cases hle : l = []
    · subst hle
      simp only [List.nil_append] at hfind
      simp only [step, textState, List.nil_append]
      rw [hfind]
      simp
    · simp only [step, textState]
      rw [hfind]
      have h1 : (l.isEmpty) = false := by
        cases l with
        | nil => exact absurd rfl hle
        | cons x xs => rfl
      have h2 : ((l ++ [a]).isEmpty) = false := by
        cases l <;> rfl
      simp only [h1, h2, Bool.false_eq_true, if_false, List.drop_zero]

/-! ### Trim computation lemmas -/

theorem dropWhile_append_nonws (t : List Char) (a : Char) (w' : List Char)
    (ha : jsWS a = false) :
    (t ++ a :: w').dropWhile jsWS = t.dropWhile jsWS ++ a :: w' := by
  induction t with
  | nil =>
    rw [List.nil_append]
    rw [List.dropWhile_cons_of_neg (by simp [ha])]
    rfl
  | cons x xs ih =>
    by_cases hx : jsWS x = true
    · rw [List.cons_append, List.dropWhile_cons_of_pos hx,
        List.dropWhile_cons_of_pos hx]
      exact ih
    · rw [List.cons_append, List.dropWhile_cons_of_neg (by simp [hx]),
        List.dropWhile_cons_of_neg (by simp [hx]), List.cons_append]

/-- When the appended tail starts and ends with non-whitespace, trimming
`t ++ w` only strips leading whitespace of `t`. -/
theorem trim_append_nonws (t w : List Char) (hW : w ≠ [])
    (hh : jsWS (w.headI) = false) (hl : jsWS (w.getLastI) = false) :
    trimL (t ++ w) = t.dropWhile jsWS ++ w := by
  obtain ⟨a, w', rfl⟩ : ∃ a w', w = a :: w' := by
    cases w with
    | nil => exact absurd rfl hW
    | cons a w' => exact ⟨a, w', rfl⟩
  have hh' : jsWS a = false := by simpa [List.headI] using hh
  unfold trimL
  rw [dropWhile_append_nonws t a w' hh']
  have hrev : (t.dropWhile jsWS ++ a :: w').reverse =
      (a :: w').reverse ++ (t.dropWhile jsWS).reverse := by
    rw [List.reverse_append]
  rw [hrev]
  obtain ⟨b, r', hr⟩ : ∃ b r', (a :: w').reverse = b :: r' := by
    cases hc : (a :: w').reverse with
    | nil => exact absurd (congrArg List.length hc) (by simp)
    | cons b r' => exact ⟨b, r', rfl⟩
  have hb : jsWS b = false := by
    have h1 : (a :: w').getLastI = b := by
      have := List.head?_reverse (a :: w')
      rw [hr] at this
      rw [List.getLastI_eq_getLast?, ← this]
      rfl
    rw [← h1]
    simpa [List.getLastI_eq_getLast?] using hl
  rw [hr, List.cons_append, List.dropWhile_cons_of_neg (by simp [hb]),
    ← List.cons_append, ← hr, ← List.reverse_append, List.reverse_reverse]

theorem trim_dropWhile (t : List Char) :
    trimL (t.dropWhile jsWS) = trimL t := by
  unfold trimL
  rw [dropWhile_dropWhile]

theorem jsSlice_dropTail {α : Type} (x w : List α) (m : ℕ) (hm : w.length = m)
    (hm0 : 0 < m) :
    jsSlice (x ++ w) 0 (-(m : Int)) = x := by
  have hn : ((x ++ w).length : Int) = (x.length : Int) + m := by
    rw [List.length_append, hm]; push_cast; ring
  simp only [jsSlice]
  rw [if_neg (show ¬ ((0 : Int) < 0) by omega),
    if_pos (show -(m : Int) < 0 by omega)]
  have e1 : (0 : Int) ⊓ ((x ++ w).length : Int) = 0 :=
    min_eq_left (by positivity)
  have e2 : (0 : Int) ⊔ (((x ++ w).length : Int) + -(m : Int)) =
      (x.length : Int) := by
    rw [hn, max_eq_right (by omega)]
    ring
  rw [e1, e2]
  simp only [Int.toNat_zero, List.drop_zero, sub_zero, Int.toNat_natCast]
  exact List.take_left x w

theorem no_mid_boundary {w γ δ : List Char} (hγ : noLT γ)
    (hhead : w.head? = some '<')
    (h : ∃ w', w' ≠ [] ∧ w = w' ++ δ ∧ ∃ p, p ++ w' = γ) : False := by
  obtain ⟨w', hne, hw, p, hp⟩ := h
  cases w' with
  | nil => exact hne rfl
  | cons a w'' =>
    rw [hw, List.cons_append] at hhead
    injection hhead with h1
    subst h1
    exact hγ (hp ▸ List.mem_append_right p (List.mem_cons_self _ _))

theorem trim_slice_read_file (t : List Char) :
    trimL (jsSlice (trimL (t ++ "<read_file".toList)) 0
      (-(((openTag "read_file".toList).length : Int) - 1))) = trimL t := by
  have h0 : (((openTag "read_file".toList).length : Int)) - 1 = ((10 : ℕ) : Int) := by
    decide
  rw [h0]
  rw [trim_append_nonws t _ (by decide) (by decide) (by decide)]
  rw [jsSlice_dropTail (t.dropWhile jsWS) _ 10 (by decide) (by decide)]
  exact trim_dropWhile t

/-- Text `t` followed by `<read_file>` fires the tool-open transition. -/
theorem text_tag_fire (t : List Char) (hlt : noLT t) :
    (t ++ "<read_file>".toList).foldl step initState = tagFiredState t := by
  have htag : "<read_file>".toList = "<read_file".toList ++ ['>'] := by decide
  have hsplit : t ++ "<read_file>".toList =
      (t ++ "<read_file".toList) ++ ['>'] := by
    rw [htag, List.append_assoc]
  rw [hsplit, List.foldl_append, List.foldl_cons, List.foldl_nil]
  have hrun : (t ++ "<read_file".toList).foldl step initState =
      textState (t ++ "<read_file".toList) := by
    apply text_run_gen
    intro k hk n hn
    rw [List.length_append, show ("<read_file".toList).length = 10 from by decide]
      at hk
    by_cases hkt : k + 1 ≤ t.length
    · rw [List.take_append_of_le_length hkt]
      exact sfx_false_of_noLT (noLT_take hlt _) (openTag_head n)
    · have hsp : (t ++ "<read_file".toList).take (k + 1) =
          t ++ "<read_file".toList.take (k + 1 - t.length) := by
        rw [List.take_append_eq_append_take, List.take_of_length_le (by omega)]
      rw [hsp]
      have hbr : "<read_file".toList.take (k + 1 - t.length) =
          "<read_file>".toList.take (k + 1 - t.length) := by
        rw [htag, List.take_append_of_le_length
          (by rw [show ("<read_file".toList).length = 10 from by decide]; omega)]
      rw [hbr]
      exact noTag_text_appendTag t hlt (k + 1 - t.length) (by omega) n hn
  rw [hrun]
  have hne : ((t ++ "<read_file".toList).isEmpty) = false := by
    cases t <;> rfl
  have hacc : (t ++ "<read_file".toList) ++ ['>'] = t ++ "<read_file>".toList :=
    hsplit.symm
  have hfind : toolUseNames.find?
      (fun tname => sfxB (openTag tname) ((t ++ "<read_file".toList) ++ ['>'])) =
      some "read_file".toList := by
    apply find?_eq_some_of_unique
    · decide
    · rw [sfxB_iff]
      refine ⟨t, ?_⟩
      have hop : openTag "read_file".toList = "<read_file".toList ++ ['>'] := by
        decide
      rw [hop, List.append_assoc]
    · intro b hb hpb
      rw [hacc] at hpb
      rcases sfx_append_split ((sfxB_iff _ _).mp hpb) with ⟨p, hp⟩ | hmid
      · exact read_file_factB b hb ((sfxB_iff _ _).mpr ⟨p, hp⟩)
      · exact (no_mid_boundary hlt (openTag_head b) hmid).elim
  simp only [step, textState, hne, Bool.false_eq_true, if_false]
  rw [hfind]
  simp only [tagFiredState, ParseState.mk.injEq]
  refine ⟨?_, trivial, trivial, trivial, ?_, trivial, trivial, hacc⟩
  · rw [List.nil_append, trim_slice_read_file t]
  · rw [List.length_append, List.length_append,
      show ("<read_file".toList).length = 10 from by decide,
      show (['>'] : List Char).length = 1 from rfl]

/-! ### The produced blocks only grow -/

theorem step_blocks_mono (s : ParseState) (c : Char) :
    ∃ l, (step s c).contentBlocks = s.contentBlocks ++ l := by
  cases htu : s.currentToolUse with
  | some tu =>
    cases hpn : s.currentParamName with
    | some pn =>
      simp only [step, htu, hpn]
      split
      · split <;> exact ⟨[], (List.append_nil _).symm⟩
      · split
        · split <;> exact ⟨[], (List.append_nil _).symm⟩
        · split
          · exact ⟨[], (List.append_nil _).symm⟩
          · exact ⟨[], (List.append_nil _).symm⟩
    | none =>
      simp only [step, htu, hpn]
      split
      · exact ⟨_, rfl⟩
      · cases hf : toolParamNames.find?
            (fun pname => sfxB (openTag pname) (s.accumulator ++ [c])) <;>
          exact ⟨[], (List.append_nil _).symm⟩
  | none =>
    simp only [step, htu]
    split
    · cases htc : s.currentTextContent with
      | some tc => exact ⟨_, rfl⟩
      | none => exact ⟨[], (List.append_nil _).symm⟩
    · exact ⟨[], (List.append_nil _).symm⟩

theorem foldl_blocks_mono (u : List Char) (s : ParseState) :
    ∃ l, (u.foldl step s).contentBlocks = s.contentBlocks ++ l := by
  induction u generalizing s with
  | nil => exact ⟨[], (List.append_nil _).symm⟩
  | cons c cs ih =>
    obtain ⟨l1, h1⟩ := step_blocks_mono s c
    obtain ⟨l2, h2⟩ := ih (step s c)
    exact ⟨l1 ++ l2, by rw [List.foldl_cons, h2, h1, List.append_assoc]⟩

theorem parse_blocks_ext (input : List Char) :
    ∃ l, parseAssistantMessage input =
      (input.foldl step initState).contentBlocks ++ l := by
  simp only [parseAssistantMessage]
  cases htu : (input.foldl step initState).currentToolUse with
  | some tu =>
    cases htc : (input.foldl step initState).currentTextContent with
    | some tc =>
      simp only []
      exact ⟨_, by rw [List.append_assoc]⟩
    | none =>
      simp only []
      exact ⟨_, rfl⟩
  | none =>
    cases htc : (input.foldl step initState).currentTextContent with
    | some tc =>
      simp only []
      exact ⟨_, rfl⟩
    | none =>
      simp only []
      exact ⟨[], (List.append_nil _).symm⟩

/-! ### C8: a tool opening tag terminates the preceding text span -/

/-- C8 (amended): when a `<read_file>` opening tag follows tag-free text `t`,
the parser closes the text span exactly there, trims the partially
accumulated tag characters from its tail (leaving `trim t`), marks it
complete, and emits it as the first produced block — *also when the trimmed
span is empty*.  (The original claim's "an empty text span is not emitted"
is refuted by the counterexample.) -/
theorem parse_text_head (t rest : List Char) (hlt : noLT t) :
    (parseAssistantMessage (t ++ "<read_file>".toList ++ rest)).head? =
      some (.text ⟨trimL t, false⟩) := by
  obtain ⟨l, hl⟩ := parse_blocks_ext (t ++ "<read_file>".toList ++ rest)
  rw [hl]
  have hfold : ((t ++ "<read_file>".toList ++ rest).foldl step initState) =
      rest.foldl step (tagFiredState t) := by
    rw [List.append_assoc, ← List.append_assoc, List.foldl_append,
      text_tag_fire t hlt]
  rw [hfold]
  obtain ⟨l2, h2⟩ := foldl_blocks_mono rest (tagFiredState t)
  rw [h2]
  rfl

/-- C8 witness: text `"hi "` (trailing whitespace) before the tag. -/
theorem parse_text_head_witness :
    noLT "hi ".toList ∧
    (parseAssistantMessage
        ("hi ".toList ++ "<read_file>".toList ++ "</read_file>".toList)).head? =
      some (.text ⟨trimL "hi ".toList, false⟩) :=
  ⟨by decide, parse_text_head "hi ".toList "</read_file>".toList (by decide)⟩

/-- C8 counterexample: an input beginning directly with a tool tag makes the
parser emit an *empty*, completed text block before the tool-use block, so
"an empty text span is not emitted as a block" is false. -/
theorem parse_emits_empty_text_block :
    parseAssistantMessage "<read_file></read_file>".toList =
      [.text ⟨[], false⟩, .toolUse ⟨"read_file".toList, [], false⟩] := by
  decide

/-! ### C1: premature embedded closing tags
(`write_to_file`/`content` and `replace_in_file`/`diff` fallbacks) -/

theorem pfx_length_le {w l : List Char} (h : pfxB w l = true) :
    w.length ≤ l.length := by
  obtain ⟨t, ht⟩ := (pfxB_iff _ _).mp h
  rw [← ht, List.length_append]
  omega

theorem pfx_refl (w : List Char) : pfxB w w = true :=
  (pfxB_iff _ _).mpr ⟨[], List.append_nil w⟩

theorem pfx_head {w l : List Char} (h : pfxB w l = true) {a : Char}
    (hw : w.head? = some a) : l.head? = some a := by
  obtain ⟨t, ht⟩ := (pfxB_iff _ _).mp h
  cases w with
  | nil => cases hw
  | cons x xs => rw [← ht]; exact hw

theorem head?_append_left {s t : List Char} (hs : s ≠ []) :
    (s ++ t).head? = s.head? := by
  cases s with
  | nil => exact absurd rfl hs
  | cons a s' => rfl

theorem mem_of_head? {l : List Char} {a : Char} (h : l.head? = some a) :
    a ∈ l := by
  cases l with
  | nil => cases h
  | cons x xs => injection h with h1; rw [← h1]; exact List.mem_cons_self _ _

theorem eq_drop_of_append {q s y : List Char} (h : q ++ s = y) :
    s = y.drop q.length := by
  rw [← h, List.drop_left]

theorem pfx_of_pfx_take {pat l : List Char} {m : ℕ}
    (h : pfxB pat (l.take m) = true) : pfxB pat l = true := by
  obtain ⟨t, ht⟩ := (pfxB_iff _ _).mp h
  refine (pfxB_iff _ _).mpr ⟨t ++ l.drop m, ?_⟩
  rw [← List.append_assoc, ht, List.take_append_drop]

theorem pfx_false_in_noLT_append {pat x y : List Char} (hx : noLT x)
    (hpat : pat.head? = some '<')
    (hy : ∀ j, pfxB pat (y.drop j) = false) (i : ℕ) :
    pfxB pat ((x ++ y).drop i) = false := by
  by_contra hc
  rw [Bool.not_eq_false] at hc
  rw [List.drop_append_eq_append_drop] at hc
  cases hxd : x.drop i with
  | nil => rw [hxd, List.nil_append, hy] at hc; cases hc
  | cons c rest =>
    rw [hxd] at hc
    have hhead := pfx_head hc hpat
    have hch : c = '<' := by
      rw [List.cons_append] at hhead
      exact Option.some.inj hhead
    exact hx (hch ▸ List.drop_subset i x (hxd ▸ List.mem_cons_self c rest))

theorem pfx_false_all_of_bounded {pat y : List Char} (hne : pat ≠ [])
    (h : ∀ j, j ≤ y.length → pfxB pat (y.drop j) = false) :
    ∀ j, pfxB pat (y.drop j) = false := by
  intro j
  by_cases hj : j ≤ y.length
  · exact h j hj
  · rw [List.drop_eq_nil_of_le (by omega)]
    cases pat with
    | nil => exact absurd rfl hne
    | cons a w => rfl

theorem lt_head_all_of_bounded {y : List Char} {P : ℕ → Prop}
    (h : ∀ j, j ≤ y.length → ((y.drop j).head? = some '<' → P j)) :
    ∀ j, (y.drop j).head? = some '<' → P j := by
  intro j hj
  by_cases hle : j ≤ y.length
  · exact h j hle hj
  · rw [List.drop_eq_nil_of_le (by omega)] at hj; cases hj

theorem find?_reverse_range (p : ℕ → Bool) :
    ∀ (n i : ℕ), i ≤ n → p i = true → (∀ j, i < j → j ≤ n → p j = false) →
      (List.range (n + 1)).reverse.find? p = some i := by
  intro n
  induction n with
  | zero =>
    intro i hi hp _
    have h0 : i = 0 := by omega
    subst h0
    rw [show List.range 1 = [0] from rfl, List.reverse_singleton]
    exact List.find?_cons_of_pos _ hp
  | succ n ih =>
    intro i hi hp hmax
    rw [List.range_succ, List.reverse_append, List.reverse_singleton,
      List.singleton_append]
    by_cases hin : i = n + 1
    · subst hin
      exact List.find?_cons_of_pos _ hp
    · have hf : p (n + 1) = false := hmax (n + 1) (by omega) (le_refl _)
      rw [List.find?_cons_of_neg _ (by simp [hf])]
      exact ih i (by omega) hp (fun j h1 h2 => hmax j h1 (by omega))

theorem lastIndexOfL_spec (l pat : List Char) (i : ℕ) (hi : i ≤ l.length)
    (hp : pfxB pat (l.drop i) = true)
    (hmax : ∀ j, i < j → j ≤ l.length → pfxB pat (l.drop j) = false) :
    lastIndexOfL l pat = some i :=
  find?_reverse_range _ l.length i hi hp hmax

theorem lastIndexOf_at_end (X pat : List Char) :
    lastIndexOfL (X ++ pat) pat = some X.length := by
  apply lastIndexOfL_spec
  · rw [List.length_append]; omega
  · rw [List.drop_left]; exact pfx_refl pat
  · intro j h1 h2
    by_contra hc
    rw [Bool.not_eq_false] at hc
    have hlen := pfx_length_le hc
    rw [List.length_drop, List.length_append] at hlen
    rw [List.length_append] at h2
    omega

theorem lastIndexOfL_eq_none (l pat : List Char)
    (h : ∀ j, pfxB pat (l.drop j) = false) : lastIndexOfL l pat = none := by
  unfold lastIndexOfL
  rw [List.find?_eq_none]
  intro j _
  simp [h j]

theorem indexOfL_zero (l pat : List Char) (h : pfxB pat l = true) :
    indexOfL l pat = some 0 := by
  unfold indexOfL
  rw [List.range_succ_eq_map]
  exact List.find?_cons_of_pos _ (by simpa using h)

theorem jsSlice_nat {α : Type} (l : List α) (s e : ℕ) (hs : s ≤ l.length)
    (he : e ≤ l.length) :
    jsSlice l (s : Int) (e : Int) = (l.drop s).take (e - s) := by
  simp only [jsSlice]
  rw [if_neg (by omega : ¬ (s : Int) < 0), if_neg (by omega : ¬ (e : Int) < 0)]
  rw [min_eq_left (by exact_mod_cast he), min_eq_left (by exact_mod_cast hs)]
  rw [show ((s : Int)).toNat = s from by omega,
    show ((e : Int) - (s : Int)).toNat = e - s from by omega]

theorem jsSlice_take {α : Type} (l : List α) (e : ℕ) (he : e ≤ l.length) :
    jsSlice l 0 (e : Int) = l.take e := by
  simp only [jsSlice]
  rw [if_neg (by omega : ¬ (0 : Int) < 0), if_neg (by omega : ¬ (e : Int) < 0)]
  rw [min_eq_left (by omega : (0 : Int) ≤ l.length),
    min_eq_left (by exact_mod_cast he)]
  rw [show ((0 : Int)).toNat = 0 from rfl,
    show ((e : Int) - 0).toNat = e from by omega, List.drop_zero]

theorem head?_take {l : List Char} {m : ℕ} (hm : 1 ≤ m) :
    (l.take m).head? = l.head? := by
  cases l with
  | nil => simp
  | cons a t =>
    cases m with
    | zero => omega
    | succ k => rfl

theorem closeTag_head (n : List Char) : (closeTag n).head? = some '<' := rfl

theorem closeTag_ne_nil (n : List Char) : closeTag n ≠ [] := by
  simp [closeTag]

theorem closeTag_length (n : List Char) :
    (closeTag n).length = n.length + 3 := by
  simp [closeTag]

theorem openTag_length (n : List Char) :
    (openTag n).length = n.length + 2 := by
  simp [openTag]

theorem sfx_drop {w l : List Char} {k : ℕ} (h : sfxB w (l.drop k) = true) :
    sfxB w l = true := by
  obtain ⟨p, hp⟩ := (sfxB_iff _ _).mp h
  exact (sfxB_iff _ _).mpr
    ⟨l.take k ++ p, by rw [List.append_assoc, hp, List.take_append_drop]⟩

theorem sfx_drop_false {w l : List Char} (k : ℕ) (h : sfxB w l = false) :
    sfxB w (l.drop k) = false := by
  by_contra hc
  rw [Bool.not_eq_false] at hc
  rw [sfx_drop hc] at h
  cases h

/-- A suffix of the tool-body accumulator that starts with `<` can start
only inside the abstract tail `β`, at the parameter closing tag, at the
parameter opening tag, or at the very beginning. -/
theorem sfx_shape {tool par a β w : List Char}
    (hA : noLT a) (hw0 : w ≠ []) (hw : w.head? = some '<')
    (hT : ∀ j, ((closeTag par).drop j).head? = some '<' → j = 0)
    (hP : ∀ j, ((openTag tool ++ openTag par).drop j).head? = some '<' →
      j = 0 ∨ j = (openTag tool).length)
    (h : isSfx w ((openTag tool ++ openTag par) ++
      (a ++ (closeTag par ++ β)))) :
    isSfx w β ∨ w = closeTag par ++ β ∨
    w = openTag par ++ (a ++ (closeTag par ++ β)) ∨
    w = (openTag tool ++ openTag par) ++ (a ++ (closeTag par ++ β)) := by
  rcases sfx_append_split h with h1 | ⟨s, hs0, hsw, hsP⟩
  · rcases sfx_append_split h1 with h2 | ⟨s, hs0, hsw, hsa⟩
    · rcases sfx_append_split h2 with h3 | ⟨s, hs0, hsw, hsT⟩
      · exact Or.inl h3
      · have hsh : s.head? = some '<' := by
          rw [hsw] at hw; rwa [head?_append_left hs0] at hw
        obtain ⟨p, hp⟩ := hsT
        have hsd : s = (closeTag par).drop p.length := eq_drop_of_append hp
        have hj := hT p.length (by rw [← hsd]; exact hsh)
        have hp0 : p = [] := List.eq_nil_of_length_eq_zero hj
        rw [hp0, List.nil_append] at hp
        exact Or.inr (Or.inl (by rw [hsw, hp]))
    · exfalso
      have hsh : s.head? = some '<' := by
        rw [hsw] at hw; rwa [head?_append_left hs0] at hw
      obtain ⟨p, hp⟩ := hsa
      exact hA (hp ▸ List.mem_append_right p (mem_of_head? hsh))
  · have hsh : s.head? = some '<' := by
      rw [hsw] at hw; rwa [head?_append_left hs0] at hw
    obtain ⟨p, hp⟩ := hsP
    have hsd : s = (openTag tool ++ openTag par).drop p.length :=
      eq_drop_of_append hp
    rcases hP p.length (by rw [← hsd]; exact hsh) with hj | hj
    · have hp0 : p = [] := List.eq_nil_of_length_eq_zero hj
      rw [hp0, List.nil_append] at hp
      exact Or.inr (Or.inr (Or.inr (by rw [hsw, hp])))
    · have hsop : s = openTag par := by
        rw [hsd, hj, List.drop_left]
      exact Or.inr (Or.inr (Or.inl (by rw [hsw, hsop])))

/-- A suffix of `y.take m` that starts with `<`, when `<` occurs only at
position 0 of `y`, is the whole `y.take m`. -/
theorem sfx_take_head {y w : List Char} {m : ℕ} (hw0 : w ≠ [])
    (hw : w.head? = some '<')
    (hY : ∀ j, (y.drop j).head? = some '<' → j = 0)
    (h : isSfx w (y.take m)) : w = y.take m := by
  obtain ⟨p, hp⟩ := h
  have hsd : w = (y.take m).drop p.length := eq_drop_of_append hp
  have hdt : (y.take m).drop p.length = (y.drop p.length).take (m - p.length) :=
    List.drop_take m p.length y
  have hne : 1 ≤ m - p.length := by
    rcases Nat.eq_zero_or_pos (m - p.length) with h0 | h1
    · exfalso; apply hw0; rw [hsd, hdt, h0, List.take_zero]
    · omega
  have hhead : (y.drop p.length).head? = some '<' := by
    rw [← head?_take hne, ← hdt, ← hsd]; exact hw
  have hj := hY p.length hhead
  have hp0 : p = [] := List.eq_nil_of_length_eq_zero hj
  rw [hp0, List.nil_append] at hp
  exact hp

/-- A suffix of `closeTag par ++ (closeTag tool).take m` starting with `<`
is either the tool-tag prefix or the whole thing. -/
theorem sfx_T_Wtake {tool par w : List Char} {m : ℕ} (hw0 : w ≠ [])
    (hw : w.head? = some '<')
    (hT : ∀ j, ((closeTag par).drop j).head? = some '<' → j = 0)
    (hW : ∀ j, ((closeTag tool).drop j).head? = some '<' → j = 0)
    (h : isSfx w (closeTag par ++ (closeTag tool).take m)) :
    w = (closeTag tool).take m ∨ w = closeTag par ++ (closeTag tool).take m := by
  rcases sfx_append_split h with h1 | ⟨s, hs0, hsw, hsT⟩
  · exact Or.inl (sfx_take_head hw0 hw hW h1)
  · have hsh : s.head? = some '<' := by
      rw [hsw] at hw; rwa [head?_append_left hs0] at hw
    obtain ⟨p, hp⟩ := hsT
    have hsd : s = (closeTag par).drop p.length := eq_drop_of_append hp
    have hj := hT p.length (by rw [← hsd]; exact hsh)
    have hp0 : p = [] := List.eq_nil_of_length_eq_zero hj
    rw [hp0, List.nil_append] at hp
    exact Or.inr (by rw [hsw, hp])

theorem drop_left2 {α : Type} (x y z : List α) :
    (x ++ (y ++ z)).drop (x.length + y.length) = z := by
  rw [← List.append_assoc, ← List.length_append, List.drop_left]

/-- A quiet character in special-parameter mode: the closing tag does not
occur in the value seen so far, so the step only accumulates. -/
theorem step_param_quiet (tool par : List Char) (hsp : specialPair tool par)
    (ps : List (List Char × List Char)) (v : List Char) (c : Char)
    (hq : lastIndexOfL (v ++ [c]) (closeTag par) = none) :
    step (paramState tool par ps v) c = paramState tool par ps (v ++ [c]) := by
  rcases hsp with ⟨h1, h2⟩ | ⟨h1, h2⟩ <;> subst h1 <;> subst h2
  · simp only [step, paramState, List.append_assoc, drop_left2, hq,
      beq_self_eq_true, Bool.and_self, if_true]
  · have e1 : (rifName == wtfName) = false := by decide
    simp only [step, paramState, List.append_assoc, drop_left2, hq, e1,
      Bool.false_and, Bool.and_self, beq_self_eq_true, if_false, if_true,
      ite_self]

/-- The closing character of a special parameter: the value now ends with
the closing tag, `lastIndexOf` finds position `i`, and the slice up to `i`
is stored (trimmed). -/
theorem step_param_close (tool par : List Char) (hsp : specialPair tool par)
    (ps : List (List Char × List Char)) (v : List Char) (c : Char) (i : ℕ)
    (hq : lastIndexOfL (v ++ [c]) (closeTag par) = some i) :
    step (paramState tool par ps v) c =
      toolBodyState tool par
        (setParam ps par (trimL (jsSlice (v ++ [c]) 0 (i : Int)))) (v ++ [c]) := by
  rcases hsp with ⟨h1, h2⟩ | ⟨h1, h2⟩ <;> subst h1 <;> subst h2
  · simp only [step, paramState, toolBodyState, List.append_assoc, drop_left2,
      hq, beq_self_eq_true, Bool.and_self, if_true]
  · have e1 : (rifName == wtfName) = false := by decide
    simp only [step, paramState, toolBodyState, List.append_assoc, drop_left2,
      hq, e1, Bool.false_and, Bool.and_self, beq_self_eq_true, if_false,
      if_true, ite_self]

/-- Running the special-parameter loop over quiet input only accumulates. -/
theorem param_run (tool par : List Char) (hsp : specialPair tool par)
    (ps : List (List Char × List Char)) (v : List Char) :
    ∀ u : List Char,
      (∀ k, k < u.length →
        lastIndexOfL (v ++ u.take (k + 1)) (closeTag par) = none) →
      u.foldl step (paramState tool par ps v) = paramState tool par ps (v ++ u) := by
  intro u
  induction u using List.reverseRecOn with
  | nil => intro _; rw [List.foldl_nil, List.append_nil]
  | append_singleton l c ih =>
    intro hq
    rw [List.foldl_append, List.foldl_cons, List.foldl_nil]
    rw [ih (fun k hk => by
      have h := hq k (by rw [List.length_append]; simp; omega)
      rwa [List.take_append_of_le_length (by omega)] at h)]
    have hlast : lastIndexOfL ((v ++ l) ++ [c]) (closeTag par) = none := by
      have h := hq l.length (by rw [List.length_append]; simp)
      rw [show (l ++ [c]).take (l.length + 1) = l ++ [c] from by
        rw [show l.length + 1 = (l ++ [c]).length from by simp, List.take_length]] at h
      rwa [List.append_assoc]
    rw [step_param_quiet tool par hsp ps (v ++ l) c hlast, List.append_assoc]

/-- A quiet character in tool-body mode: no probed tag ends here, so the
step only accumulates. -/
theorem step_tool_quiet (tool par : List Char) (hsp : specialPair tool par)
    (ps : List (List Char × List Char)) (u : List Char) (c : Char)
    (hq : noTriggerTool tool par ((openTag tool ++ openTag par ++ u) ++ [c])) :
    step (toolBodyState tool par ps u) c = toolBodyState tool par ps (u ++ [c]) := by
  have hWd : sfxB (closeTag tool)
      ((openTag tool ++ (openTag par ++ (u ++ [c]))).drop (openTag tool).length)
      = false := by
    apply sfx_drop_false
    have h := hq _ (List.mem_cons_self _ _)
    simpa [List.append_assoc] using h
  have hfind : toolParamNames.find?
      (fun pname => sfxB (openTag pname)
        (openTag tool ++ (openTag par ++ (u ++ [c])))) = none := by
    rw [List.find?_eq_none]
    intro p hp
    have h := hq _ (List.mem_cons_of_mem _
      (List.mem_cons_of_mem _ (List.mem_map_of_mem openTag hp)))
    simp only [List.append_assoc] at h
    simp [h]
  have hTn : sfxB (closeTag par)
      (openTag tool ++ (openTag par ++ (u ++ [c]))) = false := by
    have h := hq _ (List.mem_cons_of_mem _ (List.mem_cons_self _ _))
    simpa [List.append_assoc] using h
  rcases hsp with ⟨h1, h2⟩ | ⟨h1, h2⟩ <;> subst h1 <;> subst h2
  · have e2 : (wtfName == rifName) = false := by decide
    simp only [step, toolBodyState, List.append_assoc, hWd, hfind, hTn, e2,
      beq_self_eq_true, Bool.true_and, Bool.false_and, Bool.false_eq_true,
      if_false, ite_self, if_true]
  · have e2 : (rifName == wtfName) = false := by decide
    simp only [step, toolBodyState, List.append_assoc, hWd, hfind, hTn, e2,
      beq_self_eq_true, Bool.true_and, Bool.false_and, Bool.false_eq_true,
      if_false, ite_self, if_true]

/-- Running the tool-body loop over quiet input only accumulates. -/
theorem tool_run (tool par : List Char) (hsp : specialPair tool par)
    (ps : List (List Char × List Char)) (w : List Char) :
    ∀ u : List Char,
      (∀ k, k < u.length →
        noTriggerTool tool par (openTag tool ++ openTag par ++ w ++ u.take (k + 1))) →
      u.foldl step (toolBodyState tool par ps w) = toolBodyState tool par ps (w ++ u) := by
  intro u
  induction u using List.reverseRecOn with
  | nil => intro _; rw [List.foldl_nil, List.append_nil]
  | append_singleton l c ih =>
    intro hq
    rw [List.foldl_append, List.foldl_cons, List.foldl_nil]
    rw [ih (fun k hk => by
      have h := hq k (by rw [List.length_append]; simp; omega)
      rwa [List.take_append_of_le_length (by omega)] at h)]
    have hlast : noTriggerTool tool par ((openTag tool ++ openTag par ++ (w ++ l)) ++ [c]) := by
      have h := hq l.length (by rw [List.length_append]; simp)
      rw [show (l ++ [c]).take (l.length + 1) = l ++ [c] from by
        rw [show l.length + 1 = (l ++ [c]).length from by simp, List.take_length]] at h
      intro x hx
      have hx' := h x hx
      rw [show openTag tool ++ openTag par ++ w ++ (l ++ [c])
          = (openTag tool ++ openTag par ++ (w ++ l)) ++ [c] from by
        simp [List.append_assoc]] at hx'
      exact hx'
    rw [step_tool_quiet tool par hsp ps (w ++ l) c hlast, List.append_assoc]

theorem closeTag_fold (n : List Char) :
    '<' :: ('/' :: (n ++ ['>'])) = closeTag n := rfl

/-- The `>` that completes a premature parameter closing tag in tool-body
mode: the special fallback re-extracts the parameter between the first
opening tag and the last closing tag occurrence. -/
theorem step_tool_fire (tool par : List Char) (hsp : specialPair tool par)
    (ps : List (List Char × List Char)) (a b : List Char)
    (hclose : sfxB (closeTag tool)
      (openTag par ++ (a ++ (closeTag par ++ (b ++ closeTag par)))) = false)
    (hfind : toolParamNames.find? (fun pname => sfxB (openTag pname)
      (openTag tool ++ (openTag par ++ (a ++ (closeTag par ++ (b ++ closeTag par))))))
      = none) :
    step (toolBodyState tool par ps ((a ++ closeTag par ++ b) ++ ('<' :: '/' :: par))) '>' =
      toolBodyState tool par (setParam ps par (trimL (a ++ (closeTag par ++ b))))
        (a ++ (closeTag par ++ (b ++ closeTag par))) := by
  have hT3 : (closeTag par).length = par.length + 3 := closeTag_length par
  have hdropN : (openTag tool ++ (openTag par ++ (a ++ (closeTag par ++ (b ++ closeTag par))))).drop
      (openTag tool).length = openTag par ++ (a ++ (closeTag par ++ (b ++ closeTag par))) :=
    List.drop_left _ _
  have hfire : sfxB (closeTag par)
      (openTag tool ++ (openTag par ++ (a ++ (closeTag par ++ (b ++ closeTag par))))) = true :=
    (sfxB_iff _ _).mpr ⟨openTag tool ++ (openTag par ++ (a ++ (closeTag par ++ b))),
      by simp [List.append_assoc]⟩
  have hidx : indexOfL (openTag par ++ (a ++ (closeTag par ++ (b ++ closeTag par))))
      (openTag par) = some 0 :=
    indexOfL_zero _ _ ((pfxB_iff _ _).mpr ⟨_, rfl⟩)
  have hlast : lastIndexOfL (openTag par ++ (a ++ (closeTag par ++ (b ++ closeTag par))))
      (closeTag par) = some ((openTag par ++ (a ++ (closeTag par ++ b))).length) := by
    have h := lastIndexOf_at_end (openTag par ++ (a ++ (closeTag par ++ b))) (closeTag par)
    rwa [show (openTag par ++ (a ++ (closeTag par ++ b))) ++ closeTag par
      = openTag par ++ (a ++ (closeTag par ++ (b ++ closeTag par))) from by
        simp [List.append_assoc]] at h
  have hcond : (((openTag par).length : Int) ≠ -1 ∧
      (((openTag par ++ (a ++ (closeTag par ++ b))).length : ℕ) : Int) ≠ -1 ∧
      (((openTag par ++ (a ++ (closeTag par ++ b))).length : ℕ) : Int) >
        ((openTag par).length : Int)) := by
    refine ⟨by omega, by omega, ?_⟩
    have h1 : (openTag par ++ (a ++ (closeTag par ++ b))).length
        = (openTag par).length + (a.length + (par.length + 3 + b.length)) := by
      simp [List.length_append, hT3]
    rw [h1]
    omega
  have hsl : jsSlice (openTag par ++ (a ++ (closeTag par ++ (b ++ closeTag par))))
      (((openTag par).length : ℕ) : Int)
      (((openTag par ++ (a ++ (closeTag par ++ b))).length : ℕ) : Int)
      = a ++ (closeTag par ++ b) := by
    rw [jsSlice_nat _ _ _ (by simp only [List.length_append]; omega)
      (by simp only [List.length_append]; omega)]
    rw [List.drop_left]
    rw [List.length_append,
      show (openTag par).length + (a ++ (closeTag par ++ b)).length - (openTag par).length
        = (a ++ (closeTag par ++ b)).length from by omega]
    rw [show a ++ (closeTag par ++ (b ++ closeTag par))
      = (a ++ (closeTag par ++ b)) ++ closeTag par from by simp [List.append_assoc]]
    exact List.take_left _ _
  rcases hsp with ⟨h1, h2⟩ | ⟨h1, h2⟩ <;> subst h1 <;> subst h2
  · have e2 : (wtfName == rifName) = false := by decide
    simp only [step, toolBodyState, List.append_assoc, List.cons_append,
      closeTag_fold, hdropN, hclose, hfind, hfire, hidx, hlast,
      beq_self_eq_true, Bool.true_and, e2, Bool.false_and, Bool.false_eq_true,
      if_false, if_true, Nat.cast_zero, zero_add, eq_true hcond, hsl,
      eq_self_iff_true, ite_self]
  · have e1 : (rifName == wtfName) = false := by decide
    simp only [step, toolBodyState, List.append_assoc, List.cons_append,
      closeTag_fold, hdropN, hclose, hfind, hfire, hidx, hlast,
      beq_self_eq_true, Bool.true_and, e1, Bool.false_and, Bool.false_eq_true,
      if_false, if_true, Nat.cast_zero, zero_add, eq_true hcond, hsl,
      eq_self_iff_true, ite_self]

/-- The `>` that completes the tool closing tag pushes the completed tool
use. -/
theorem step_tool_close (tool par : List Char)
    (ps : List (List Char × List Char)) (u : List Char) (c : Char)
    (hclose : sfxB (closeTag tool) (openTag par ++ (u ++ [c])) = true) :
    step (toolBodyState tool par ps u) c =
      { contentBlocks := [.text ⟨[], false⟩, .toolUse ⟨tool, ps, false⟩],
        currentTextContent := none,
        currentTextContentStartIndex := 0,
        currentToolUse := none,
        currentToolUseStartIndex := (openTag tool).length,
        currentParamName := none,
        currentParamValueStartIndex := (openTag tool).length + (openTag par).length,
        accumulator := openTag tool ++ (openTag par ++ (u ++ [c])) } := by
  have hdropN : (openTag tool ++ (openTag par ++ (u ++ [c]))).drop (openTag tool).length
      = openTag par ++ (u ++ [c]) := List.drop_left _ _
  simp only [step, toolBodyState, List.append_assoc, hdropN, hclose,
    eq_self_iff_true, if_true, List.cons_append, List.nil_append,
    List.singleton_append]

/-- The parameter closing tag never occurs strictly inside
`a ++ "</par"` when `a` is tag-free. -/
theorem param_phase_none (par a : List Char) (hA : noLT a)
    (hTb : ∀ j, j ≤ ('<' :: '/' :: par).length →
      pfxB (closeTag par) (('<' :: '/' :: par).drop j) = false) :
    ∀ m, lastIndexOfL ((a ++ ('<' :: '/' :: par)).take m) (closeTag par) = none := by
  intro m
  apply lastIndexOfL_eq_none
  intro j
  by_contra hc
  rw [Bool.not_eq_false] at hc
  rw [List.drop_take] at hc
  have hc2 := pfx_of_pfx_take hc
  have hy : ∀ j, pfxB (closeTag par) (('<' :: '/' :: par).drop j) = false :=
    pfx_false_all_of_bounded (closeTag_ne_nil par) hTb
  rw [pfx_false_in_noLT_append hA (closeTag_head par) hy j] at hc2
  cases hc2

theorem shape2_refute {par β w : List Char}
    (hF2w : pfxB (closeTag par) w = true → w = closeTag par)
    (hβ : β ≠ []) (h2 : w = closeTag par ++ β) : False := by
  have hpfx : pfxB (closeTag par) w = true := (pfxB_iff _ _).mpr ⟨_, h2.symm⟩
  have weq := hF2w hpfx
  rw [weq] at h2
  have hlen := congrArg List.length h2
  simp only [List.length_append] at hlen
  exact hβ (List.eq_nil_of_length_eq_zero (by omega))

theorem shape3_refute {par a β w : List Char}
    (hF5w : pfxB (openTag par) w = true → w = openTag par)
    (h3 : w = openTag par ++ (a ++ (closeTag par ++ β))) : False := by
  have hpfx : pfxB (openTag par) w = true := (pfxB_iff _ _).mpr ⟨_, h3.symm⟩
  have weq := hF5w hpfx
  rw [weq] at h3
  have hlen := congrArg List.length h3
  simp only [List.length_append] at hlen
  have hcl := closeTag_length par
  omega

theorem shape4_refute {tool par a β w : List Char}
    (hwlen : w.length ≤ 21) (hlenP : 21 < (openTag tool ++ openTag par).length)
    (h4 : w = (openTag tool ++ openTag par) ++ (a ++ (closeTag par ++ β))) :
    False := by
  have hlen := congrArg List.length h4
  simp only [List.length_append] at hlen
  have hlenP' : 21 < (openTag tool).length + (openTag par).length := by
    rw [← List.length_append]; exact hlenP
  omega

/-- No probed tag fires while the payload part `b` streams in. -/
theorem noTrig_b (tool par a b : List Char) (hA : noLT a) (hB : noLT b)
    (hTu : ∀ j, ((closeTag par).drop j).head? = some '<' → j = 0)
    (hPu : ∀ j, ((openTag tool ++ openTag par).drop j).head? = some '<' →
      j = 0 ∨ j = (openTag tool).length)
    (hF1 : ∀ w ∈ checkedTags tool par, w ≠ [] ∧ w.head? = some '<' ∧ w.length ≤ 21)
    (hF2 : ∀ w ∈ checkedTags tool par, pfxB (closeTag par) w = true → w = closeTag par)
    (hF5 : ∀ w ∈ checkedTags tool par, pfxB (openTag par) w = true → w = openTag par)
    (hlenP : 21 < (openTag tool ++ openTag par).length) :
    ∀ k, k < b.length →
      noTriggerTool tool par
        (openTag tool ++ openTag par ++ (a ++ closeTag par) ++ b.take (k + 1)) := by
  intro k hk w hw
  by_contra hc
  rw [Bool.not_eq_false] at hc
  obtain ⟨hw0, hwh, hwlen⟩ := hF1 w hw
  obtain ⟨p, hp⟩ := (sfxB_iff _ _).mp hc
  have hS : isSfx w ((openTag tool ++ openTag par) ++
      (a ++ (closeTag par ++ b.take (k + 1)))) :=
    ⟨p, by rw [hp]; simp [List.append_assoc]⟩
  rcases sfx_shape hA hw0 hwh hTu hPu hS with h1 | h2 | h3 | h4
  · obtain ⟨q, hq⟩ := h1
    have hmem : '<' ∈ b.take (k + 1) :=
      hq ▸ List.mem_append_right q (mem_of_head? hwh)
    exact hB (List.take_subset _ _ hmem)
  · refine shape2_refute (hF2 w hw) (fun hnil => ?_) h2
    have hlen := congrArg List.length hnil
    simp only [List.length_take, List.length_nil] at hlen
    omega
  · exact shape3_refute (hF5 w hw) h3
  · exact shape4_refute hwlen hlenP h4

/-- No probed tag fires while the premature closing tag (minus its final
`>`) streams in. -/
theorem noTrig_T (tool par a b : List Char) (hA : noLT a) (hB : noLT b)
    (hTu : ∀ j, ((closeTag par).drop j).head? = some '<' → j = 0)
    (hPu : ∀ j, ((openTag tool ++ openTag par).drop j).head? = some '<' →
      j = 0 ∨ j = (openTag tool).length)
    (hF1 : ∀ w ∈ checkedTags tool par, w ≠ [] ∧ w.head? = some '<' ∧ w.length ≤ 21)
    (hF2 : ∀ w ∈ checkedTags tool par, pfxB (closeTag par) w = true → w = closeTag par)
    (hF5 : ∀ w ∈ checkedTags tool par, pfxB (openTag par) w = true → w = openTag par)
    (hF9 : ∀ w ∈ checkedTags tool par, ∀ m, m < (closeTag par).length →
      w ≠ (closeTag par).take m)
    (hlenP : 21 < (openTag tool ++ openTag par).length) :
    ∀ k, k < ('<' :: '/' :: par).length →
      noTriggerTool tool par
        (openTag tool ++ openTag par ++ (a ++ closeTag par ++ b) ++
          ('<' :: '/' :: par).take (k + 1)) := by
  intro k hk w hw
  by_contra hc
  rw [Bool.not_eq_false] at hc
  obtain ⟨hw0, hwh, hwlen⟩ := hF1 w hw
  obtain ⟨p, hp⟩ := (sfxB_iff _ _).mp hc
  have hTlen : ('<' :: '/' :: par).length = par.length + 2 := by simp
  have htk : ('<' :: '/' :: par).take (k + 1) = (closeTag par).take (k + 1) := by
    rw [show closeTag par = ('<' :: '/' :: par) ++ ['>'] from rfl,
      List.take_append_of_le_length (by omega)]
  rw [htk] at hp
  have hS : isSfx w ((openTag tool ++ openTag par) ++
      (a ++ (closeTag par ++ (b ++ (closeTag par).take (k + 1))))) :=
    ⟨p, by rw [hp]; simp [List.append_assoc]⟩
  rcases sfx_shape hA hw0 hwh hTu hPu hS with h1 | h2 | h3 | h4
  · rcases sfx_append_split h1 with h1a | ⟨s, hs0, hsw, hsb⟩
    · have hweq := sfx_take_head hw0 hwh hTu h1a
      exact hF9 w hw (k + 1) (by have := closeTag_length par; omega) hweq
    · have hsh : s.head? = some '<' := by
        rw [hsw] at hwh; rwa [head?_append_left hs0] at hwh
      obtain ⟨q, hq⟩ := hsb
      exact hB (hq ▸ List.mem_append_right q (mem_of_head? hsh))
  · refine shape2_refute (hF2 w hw) (fun hnil => ?_) h2
    rcases List.append_eq_nil.mp hnil with ⟨_, htn⟩
    have hlen := congrArg List.length htn
    simp only [List.length_take, List.length_nil] at hlen
    have := closeTag_length par
    omega
  · exact shape3_refute (hF5 w hw) h3
  · exact shape4_refute hwlen hlenP h4

/-- No probed tag fires while the tool closing tag (minus its final `>`)
streams in. -/
theorem noTrig_W (tool par a b : List Char) (hA : noLT a) (hB : noLT b)
    (hTu : ∀ j, ((closeTag par).drop j).head? = some '<' → j = 0)
    (hWu : ∀ j, ((closeTag tool).drop j).head? = some '<' → j = 0)
    (hPu : ∀ j, ((openTag tool ++ openTag par).drop j).head? = some '<' →
      j = 0 ∨ j = (openTag tool).length)
    (hF1 : ∀ w ∈ checkedTags tool par, w ≠ [] ∧ w.head? = some '<' ∧ w.length ≤ 21)
    (hF2 : ∀ w ∈ checkedTags tool par, pfxB (closeTag par) w = true → w = closeTag par)
    (hF5 : ∀ w ∈ checkedTags tool par, pfxB (openTag par) w = true → w = openTag par)
    (hF8 : ∀ w ∈ checkedTags tool par, ∀ m, m < (closeTag tool).length →
      w ≠ (closeTag tool).take m)
    (hlenP : 21 < (openTag tool ++ openTag par).length) :
    ∀ k, k < ('<' :: '/' :: tool).length →
      noTriggerTool tool par
        (openTag tool ++ openTag par ++ (a ++ (closeTag par ++ (b ++ closeTag par))) ++
          ('<' :: '/' :: tool).take (k + 1)) := by
  intro k hk w hw
  by_contra hc
  rw [Bool.not_eq_false] at hc
  obtain ⟨hw0, hwh, hwlen⟩ := hF1 w hw
  obtain ⟨p, hp⟩ := (sfxB_iff _ _).mp hc
  have hWlen : ('<' :: '/' :: tool).length = tool.length + 2 := by simp
  have htk : ('<' :: '/' :: tool).take (k + 1) = (closeTag tool).take (k + 1) := by
    rw [show closeTag tool = ('<' :: '/' :: tool) ++ ['>'] from rfl,
      List.take_append_of_le_length (by omega)]
  rw [htk] at hp
  have hS : isSfx w ((openTag tool ++ openTag par) ++
      (a ++ (closeTag par ++ (b ++ (closeTag par ++ (closeTag tool).take (k + 1)))))) :=
    ⟨p, by rw [hp]; simp [List.append_assoc]⟩
  rcases sfx_shape hA hw0 hwh hTu hPu hS with h1 | h2 | h3 | h4
  · rcases sfx_append_split h1 with h1a | ⟨s, hs0, hsw, hsb⟩
    · rcases sfx_T_Wtake hw0 hwh hTu hWu h1a with hweq | hweq
      · exact hF8 w hw (k + 1) (by have := closeTag_length tool; omega) hweq
      · refine shape2_refute (hF2 w hw) (fun hnil => ?_) hweq
        have hlen := congrArg List.length hnil
        simp only [List.length_take, List.length_nil] at hlen
        have := closeTag_length tool
        omega
    · have hsh : s.head? = some '<' := by
        rw [hsw] at hwh; rwa [head?_append_left hs0] at hwh
      obtain ⟨q, hq⟩ := hsb
      exact hB (hq ▸ List.mem_append_right q (mem_of_head? hsh))
  · refine shape2_refute (hF2 w hw) (fun hnil => ?_) h2
    rcases List.append_eq_nil.mp hnil with ⟨_, htn⟩
    rcases List.append_eq_nil.mp htn with ⟨htn2, _⟩
    exact closeTag_ne_nil par htn2
  · exact shape3_refute (hF5 w hw) h3
  · exact shape4_refute hwlen hlenP h4

/-- At the fallback-firing character only the parameter closing tag is a
suffix of the accumulator: the tool close check and the parameter-open
scan stay silent. -/
theorem noTrig_fire (tool par a b : List Char) (hA : noLT a) (hB : noLT b)
    (hTu : ∀ j, ((closeTag par).drop j).head? = some '<' → j = 0)
    (hPu : ∀ j, ((openTag tool ++ openTag par).drop j).head? = some '<' →
      j = 0 ∨ j = (openTag tool).length)
    (hF1 : ∀ w ∈ checkedTags tool par, w ≠ [] ∧ w.head? = some '<' ∧ w.length ≤ 21)
    (hF2 : ∀ w ∈ checkedTags tool par, pfxB (closeTag par) w = true → w = closeTag par)
    (hF5 : ∀ w ∈ checkedTags tool par, pfxB (openTag par) w = true → w = openTag par)
    (hlenP : 21 < (openTag tool ++ openTag par).length) :
    ∀ w ∈ checkedTags tool par, w ≠ closeTag par →
      sfxB w (openTag tool ++ (openTag par ++
        (a ++ (closeTag par ++ (b ++ closeTag par))))) = false := by
  intro w hw hwne
  by_contra hc
  rw [Bool.not_eq_false] at hc
  obtain ⟨hw0, hwh, hwlen⟩ := hF1 w hw
  obtain ⟨p, hp⟩ := (sfxB_iff _ _).mp hc
  have hS : isSfx w ((openTag tool ++ openTag par) ++
      (a ++ (closeTag par ++ (b ++ closeTag par)))) :=
    ⟨p, by rw [hp]; simp [List.append_assoc]⟩
  rcases sfx_shape hA hw0 hwh hTu hPu hS with h1 | h2 | h3 | h4
  · rcases sfx_append_split h1 with h1a | ⟨s, hs0, hsw, hsb⟩
    · obtain ⟨q, hq⟩ := h1a
      have hsd : w = (closeTag par).drop q.length := eq_drop_of_append hq
      have hj := hTu q.length (by rw [← hsd]; exact hwh)
      have hq0 : q = [] := List.eq_nil_of_length_eq_zero hj
      rw [hq0, List.nil_append] at hq
      exact hwne hq
    · have hsh : s.head? = some '<' := by
        rw [hsw] at hwh; rwa [head?_append_left hs0] at hwh
      obtain ⟨q, hq⟩ := hsb
      exact hB (hq ▸ List.mem_append_right q (mem_of_head? hsh))
  · refine shape2_refute (hF2 w hw) (fun hnil => ?_) h2
    rcases List.append_eq_nil.mp hnil with ⟨_, htn⟩
    exact closeTag_ne_nil par htn
  · exact shape3_refute (hF5 w hw) h3
  · exact shape4_refute hwlen hlenP h4

/-- End-to-end run of `parseAssistantMessage` on the large-payload input,
generic over the two special `tool`/`par` pairs; the decidable per-family
facts are hypotheses. -/
theorem parse_embedded_generic (tool par a b : List Char)
    (hsp : specialPair tool par) (hA : noLT a) (hB : noLT b)
    (hstart : (openTag tool ++ openTag par).foldl step initState =
      paramState tool par [] [])
    (hTb : ∀ j, j ≤ ('<' :: '/' :: par).length →
      pfxB (closeTag par) (('<' :: '/' :: par).drop j) = false)
    (hTbd : ∀ j, j ≤ (closeTag par).length →
      (((closeTag par).drop j).head? = some '<' → j = 0))
    (hWbd : ∀ j, j ≤ (closeTag tool).length →
      (((closeTag tool).drop j).head? = some '<' → j = 0))
    (hPbd : ∀ j, j ≤ (openTag tool ++ openTag par).length →
      (((openTag tool ++ openTag par).drop j).head? = some '<' →
        j = 0 ∨ j = (openTag tool).length))
    (hF1 : ∀ w ∈ checkedTags tool par, w ≠ [] ∧ w.head? = some '<' ∧ w.length ≤ 21)
    (hF2 : ∀ w ∈ checkedTags tool par, pfxB (closeTag par) w = true → w = closeTag par)
    (hF5 : ∀ w ∈ checkedTags tool par, pfxB (openTag par) w = true → w = openTag par)
    (hF8 : ∀ w ∈ checkedTags tool par, ∀ m, m < (closeTag tool).length →
      w ≠ (closeTag tool).take m)
    (hF9 : ∀ w ∈ checkedTags tool par, ∀ m, m < (closeTag par).length →
      w ≠ (closeTag par).take m)
    (hF13 : ∀ q ∈ toolParamNames, openTag q ≠ closeTag par)
    (hlenWT : (closeTag tool).length ≠ (closeTag par).length)
    (hlenP : 21 < (openTag tool ++ openTag par).length) :
    parseAssistantMessage (embeddedTagInput tool par a b) =
      [.text ⟨[], false⟩,
       .toolUse ⟨tool, [(par, trimL (a ++ closeTag par ++ b))], false⟩] := by
  have hTu := lt_head_all_of_bounded hTbd
  have hWu := lt_head_all_of_bounded hWbd
  have hPu := lt_head_all_of_bounded hPbd
  -- phase 1: the payload prefix and the body of the premature closing tag
  have h12 : (a ++ ('<' :: '/' :: par)).foldl step (paramState tool par [] []) =
      paramState tool par [] (a ++ ('<' :: '/' :: par)) := by
    have h := param_run tool par hsp [] [] (a ++ ('<' :: '/' :: par))
      (fun k hk => by simpa using param_phase_none par a hA hTb (k + 1))
    simpa using h
  -- phase 2: the `>` that completes the premature closing tag
  have h2c : step (paramState tool par [] (a ++ ('<' :: '/' :: par))) '>' =
      toolBodyState tool par [(par, trimL a)] (a ++ closeTag par) := by
    have hlastc : lastIndexOfL ((a ++ ('<' :: '/' :: par)) ++ ['>'])
        (closeTag par) = some a.length := by
      have h := lastIndexOf_at_end a (closeTag par)
      rwa [show a ++ closeTag par = (a ++ ('<' :: '/' :: par)) ++ ['>'] from by
        rw [show closeTag par = ('<' :: '/' :: par) ++ ['>'] from rfl,
          List.append_assoc]] at h
    rw [step_param_close tool par hsp [] _ '>' a.length hlastc]
    have harg : (a ++ ('<' :: '/' :: par)) ++ ['>'] = a ++ closeTag par := by
      rw [show closeTag par = ('<' :: '/' :: par) ++ ['>'] from rfl,
        List.append_assoc]
    rw [harg]
    have hslice : jsSlice (a ++ closeTag par) 0 (a.length : Int) = a := by
      rw [jsSlice_take _ _ (by simp [List.length_append])]
      exact List.take_left _ _
    rw [hslice, show setParam [] par (trimL a) = [(par, trimL a)] from by
      simp [setParam]]
  -- phase 3: the tail payload part `b`
  have h3 : b.foldl step (toolBodyState tool par [(par, trimL a)] (a ++ closeTag par)) =
      toolBodyState tool par [(par, trimL a)] (a ++ closeTag par ++ b) :=
    tool_run tool par hsp _ _ b (noTrig_b tool par a b hA hB hTu hPu hF1 hF2 hF5 hlenP)
  -- phase 4: the body of the real closing tag
  have h4 : ('<' :: '/' :: par).foldl step
      (toolBodyState tool par [(par, trimL a)] (a ++ closeTag par ++ b)) =
      toolBodyState tool par [(par, trimL a)]
        ((a ++ closeTag par ++ b) ++ ('<' :: '/' :: par)) :=
    tool_run tool par hsp _ _ ('<' :: '/' :: par)
      (noTrig_T tool par a b hA hB hTu hPu hF1 hF2 hF5 hF9 hlenP)
  -- phase 5: the `>` that fires the fallback re-extraction
  have hTne : closeTag tool ≠ closeTag par := fun h => hlenWT (congrArg List.length h)
  have hclose5 : sfxB (closeTag tool)
      (openTag par ++ (a ++ (closeTag par ++ (b ++ closeTag par)))) = false := by
    have h := noTrig_fire tool par a b hA hB hTu hPu hF1 hF2 hF5 hlenP
      (closeTag tool) (List.mem_cons_self _ _) hTne
    have h2 := sfx_drop_false (openTag tool).length h
    rwa [List.drop_left] at h2
  have hfind5 : toolParamNames.find? (fun pname => sfxB (openTag pname)
      (openTag tool ++ (openTag par ++ (a ++ (closeTag par ++ (b ++ closeTag par))))))
      = none := by
    rw [List.find?_eq_none]
    intro q hq
    have h := noTrig_fire tool par a b hA hB hTu hPu hF1 hF2 hF5 hlenP
      (openTag q) (List.mem_cons_of_mem _ (List.mem_cons_of_mem _
        (List.mem_map_of_mem openTag hq))) (hF13 q hq)
    simp [h]
  have h5 : step (toolBodyState tool par [(par, trimL a)]
      ((a ++ closeTag par ++ b) ++ ('<' :: '/' :: par))) '>' =
      toolBodyState tool par [(par, trimL (a ++ (closeTag par ++ b)))]
        (a ++ (closeTag par ++ (b ++ closeTag par))) := by
    have h := step_tool_fire tool par hsp [(par, trimL a)] a b hclose5 hfind5
    rwa [show setParam [(par, trimL a)] par (trimL (a ++ (closeTag par ++ b)))
        = [(par, trimL (a ++ (closeTag par ++ b)))] from by simp [setParam]] at h
  -- phase 6: the body of the tool closing tag
  have h6 : ('<' :: '/' :: tool).foldl step
      (toolBodyState tool par [(par, trimL (a ++ (closeTag par ++ b)))]
        (a ++ (closeTag par ++ (b ++ closeTag par)))) =
      toolBodyState tool par [(par, trimL (a ++ (closeTag par ++ b)))]
        ((a ++ (closeTag par ++ (b ++ closeTag par))) ++ ('<' :: '/' :: tool)) :=
    tool_run tool par hsp _ _ ('<' :: '/' :: tool)
      (noTrig_W tool par a b hA hB hTu hWu hPu hF1 hF2 hF5 hF8 hlenP)
  -- phase 7: the `>` that completes the tool closing tag
  have h7 : step (toolBodyState tool par [(par, trimL (a ++ (closeTag par ++ b)))]
      ((a ++ (closeTag par ++ (b ++ closeTag par))) ++ ('<' :: '/' :: tool))) '>' =
      { contentBlocks := [.text ⟨[], false⟩,
          .toolUse ⟨tool, [(par, trimL (a ++ (closeTag par ++ b)))], false⟩],
        currentTextContent := none,
        currentTextContentStartIndex := 0,
        currentToolUse := none,
        currentToolUseStartIndex := (openTag tool).length,
        currentParamName := none,
        currentParamValueStartIndex := (openTag tool).length + (openTag par).length,
        accumulator := openTag tool ++ (openTag par ++
          (((a ++ (closeTag par ++ (b ++ closeTag par))) ++ ('<' :: '/' :: tool)) ++ ['>'])) } := by
    apply step_tool_close
    refine (sfxB_iff _ _).mpr
      ⟨openTag par ++ (a ++ (closeTag par ++ (b ++ closeTag par))), ?_⟩
    rw [show closeTag tool = ('<' :: '/' :: tool) ++ ['>'] from rfl]
    simp [List.append_assoc]
  -- assemble the full fold
  have hfold : (embeddedTagInput tool par a b).foldl step initState =
      { contentBlocks := [.text ⟨[], false⟩,
          .toolUse ⟨tool, [(par, trimL (a ++ (closeTag par ++ b)))], false⟩],
        currentTextContent := none,
        currentTextContentStartIndex := 0,
        currentToolUse := none,
        currentToolUseStartIndex := (openTag tool).length,
        currentParamName := none,
        currentParamValueStartIndex := (openTag tool).length + (openTag par).length,
        accumulator := openTag tool ++ (openTag par ++
          (((a ++ (closeTag par ++ (b ++ closeTag par))) ++ ('<' :: '/' :: tool)) ++ ['>'])) } := by
    rw [show embeddedTagInput tool par a b =
        (openTag tool ++ openTag par) ++ ((a ++ ('<' :: '/' :: par)) ++ (['>'] ++
          (b ++ (('<' :: '/' :: par) ++ (['>'] ++ (('<' :: '/' :: tool) ++ ['>'])))))) from by
      simp [embeddedTagInput, closeTag, List.append_assoc]]
    rw [List.foldl_append, hstart]
    rw [List.foldl_append, h12]
    rw [List.foldl_append,
      show List.foldl step (paramState tool par [] (a ++ ('<' :: '/' :: par))) ['>']
        = toolBodyState tool par [(par, trimL a)] (a ++ closeTag par) from by
      rw [List.foldl_cons, List.foldl_nil, h2c]]
    rw [List.foldl_append, h3]
    rw [List.foldl_append, h4]
    rw [List.foldl_append,
      show List.foldl step (toolBodyState tool par [(par, trimL a)]
          ((a ++ closeTag par ++ b) ++ ('<' :: '/' :: par))) ['>']
        = toolBodyState tool par [(par, trimL (a ++ (closeTag par ++ b)))]
            (a ++ (closeTag par ++ (b ++ closeTag par))) from by
      rw [List.foldl_cons, List.foldl_nil, h5]]
    rw [List.foldl_append, h6]
    rw [List.foldl_cons, List.foldl_nil, h7]
  simp only [parseAssistantMessage, hfold]
  simp [List.append_assoc]

/-- The `write_to_file`/`content` family instance: all decidable facts
checked by computation. -/
theorem parse_wtf_embedded (a b : List Char) (hA : noLT a) (hB : noLT b) :
    parseAssistantMessage (embeddedTagInput wtfName contentName a b) =
      [.text ⟨[], false⟩,
       .toolUse ⟨wtfName, [(contentName, trimL (a ++ closeTag contentName ++ b))],
         false⟩] :=
  parse_embedded_generic wtfName contentName a b (Or.inl ⟨rfl, rfl⟩) hA hB
    (by decide) (by decide) (by decide) (by decide) (by decide) (by decide)
    (by decide) (by decide) (by decide) (by decide) (by decide) (by decide)
    (by decide)

/-- The `replace_in_file`/`diff` family instance. -/
theorem parse_rif_embedded (a b : List Char) (hA : noLT a) (hB : noLT b) :
    parseAssistantMessage (embeddedTagInput rifName diffName a b) =
      [.text ⟨[], false⟩,
       .toolUse ⟨rifName, [(diffName, trimL (a ++ closeTag diffName ++ b))],
         false⟩] :=
  parse_embedded_generic rifName diffName a b (Or.inr ⟨rfl, rfl⟩) hA hB
    (by decide) (by decide) (by decide) (by decide) (by decide) (by decide)
    (by decide) (by decide) (by decide) (by decide) (by decide) (by decide)
    (by decide)

/-- C1: for every payload containing a literal premature occurrence of the
parameter's closing tag (`a ++ closeTag ++ b` with tag-free `a`, `b`)
inside a `write_to_file` `content` parameter, `parseAssistantMessage`
produces a single completed ToolUse block whose stored `content` value is
the whole `a ++ closeTag ++ b` payload (trimmed), i.e. it extends up to the
*last* occurrence of the closing tag in the accumulated value rather than
stopping at the first (which would have stored only `trimL a`); likewise
for the `replace_in_file` `diff` parameter. -/
theorem parse_last_occurrence_fallback (a b : List Char)
    (hA : noLT a) (hB : noLT b) :
    parseAssistantMessage (embeddedTagInput wtfName contentName a b) =
      [.text ⟨[], false⟩,
       .toolUse ⟨wtfName, [(contentName, trimL (a ++ closeTag contentName ++ b))],
         false⟩] ∧
    parseAssistantMessage (embeddedTagInput rifName diffName a b) =
      [.text ⟨[], false⟩,
       .toolUse ⟨rifName, [(diffName, trimL (a ++ closeTag diffName ++ b))],
         false⟩] :=
  ⟨parse_wtf_embedded a b hA hB, parse_rif_embedded a b hA hB⟩

/-- C1 witness: payloads `A</content>B` and `A</diff>B`; the stored values
contain the premature closing-tag text, i.e. extraction ran to the last
occurrence. -/
theorem parse_last_occurrence_fallback_witness :
    noLT ['A'] ∧ noLT ['B'] ∧
    parseAssistantMessage (embeddedTagInput wtfName contentName ['A'] ['B']) =
      [.text ⟨[], false⟩,
       .toolUse ⟨wtfName, [(contentName, "A</content>B".toList)], false⟩] ∧
    parseAssistantMessage (embeddedTagInput rifName diffName ['A'] ['B']) =
      [.text ⟨[], false⟩,
       .toolUse ⟨rifName, [(diffName, "A</diff>B".toList)], false⟩] := by
  refine ⟨by decide, by decide, ?_, ?_⟩
  · rw [(parse_last_occurrence_fallback ['A'] ['B'] (by decide) (by decide)).1]
    decide
  · rw [(parse_last_occurrence_fallback ['A'] ['B'] (by decide) (by decide)).2]
    decide

end Cline
